import Mathlib

/-!
Shallow embedding of the account-manager and storage-adapter layer of the
repository (files `account_manager.py` and `storage_adapter.py`), together
with theorems settling the frozen claims C1–C10.

Python dictionaries are modelled as ordered association lists over a small
`Value` type (Python `None`, `str`, `bool` and numeric timestamps).
`dict.get(k)` returns `Value.none` when the key is absent, matching Python.
Randomness (`secrets.choice`) is modelled by an external stream
`rand : Nat → Nat`; the current time and the external admin configuration are
carried in a `Config` record.  Every operation that can raise returns an
`Except PyError` payload, paired with the account list that is persisted in
storage when the operation finishes (normally or by raising).
-/

set_option maxHeartbeats 1000000

deriving instance DecidableEq for Except

namespace GCli

/-- Python values stored in account dictionaries. -/
inductive Value where
  | none : Value
  | str : String → Value
  | bool : Bool → Value
  | nat : Nat → Value
deriving DecidableEq, Repr

/-- A Python dict: ordered association list with (by construction) unique keys. -/
abbrev Dict := List (String × Value)

/-- First binding of a key, `Option`-valued: key presence. -/
def dictFind (d : Dict) (k : String) : Option Value :=
  match d with
  | [] => Option.none
  | (k', v) :: rest => if k' = k then some v else dictFind rest k

/-- Python `d.get(k)`: the bound value, or `None` when the key is absent. -/
def dictGet (d : Dict) (k : String) : Value :=
  (dictFind d k).getD Value.none

/-- Python `d.get(k, default)`: default only when the key is absent. -/
def dictGetD (d : Dict) (k : String) (v : Value) : Value :=
  (dictFind d k).getD v

/-- Python `d[k] = v`: replace the first binding in place, else append. -/
def dictSet (d : Dict) (k : String) (v : Value) : Dict :=
  match d with
  | [] => [(k, v)]
  | (k', v') :: rest => if k' = k then (k, v) :: rest else (k', v') :: dictSet rest k v

/-- Python `d.update(kvs)`: assign each pair in order. -/
def dictUpdate (d : Dict) (kvs : List (String × Value)) : Dict :=
  kvs.foldl (fun acc kv => dictSet acc kv.1 kv.2) d

/-- The keys of a dict, in order. -/
def dictKeys (d : Dict) : List String := d.map Prod.fst

/-- Python truthiness of a value (`None`, `""`, `False`, `0` are falsy). -/
def truthy : Value → Bool
  | Value.none => false
  | Value.str s => !(s = "")
  | Value.bool b => b
  | Value.nat n => !(n = 0)

/-- Exceptions raised by the account manager. -/
inductive PyError where
  | keyExhausted : PyError     -- RuntimeError from `_ensure_unique_api_key`
  | lastAccount : PyError      -- ValueError from `remove_account`
  | userNotFound : PyError     -- ValueError from `refresh_api_key`
deriving DecidableEq, Repr

/-- Result of a fallible operation. -/
abbrev Res (α : Type) := Except PyError α

/-- External inputs of one account-manager call: the configured admin
identity, the password hash function (SHA-256 in the source, abstracted here),
the random stream feeding `secrets.choice`, and the current clock value. -/
structure Config where
  adminUsername : String
  adminPassword : String
  hash : String → String
  rand : Nat → Nat
  now : Nat

def API_KEY_LENGTH : Nat := 32

def API_KEY_CHARS : String :=
  "ABCDEFGHIJKLMNOPQRSTUVWXYZabcdefghijklmnopqrstuvwxyz0123456789-"

/-- `secrets.choice(s)` fed by one number of the random stream: an element of
`s` (the draw index reduced modulo the length). -/
def secretsChoice (s : String) (r : Nat) : Char :=
  s.toList.getD (r % s.toList.length) 'A'

/-- The `d`-th candidate API key: 32 characters drawn from `API_KEY_CHARS`,
consuming 32 entries of the random stream. -/
def mkCandidate (rand : Nat → Nat) (d : Nat) : String :=
  String.mk ((List.range API_KEY_LENGTH).map
    (fun i => secretsChoice API_KEY_CHARS (rand (API_KEY_LENGTH * d + i))))

/-- The `for _ in range(20)` draw loop: try candidates `d, d+1, …`, returning
the first one absent from `keys` together with the next draw index. -/
def drawLoop (rand : Nat → Nat) (keys : List Value) : Nat → Nat → Option (String × Nat)
  | 0, _ => Option.none
  | fuel + 1, d =>
    let c := mkCandidate rand d
    if Value.str c ∈ keys then drawLoop rand keys fuel (d + 1)
    else some (c, d + 1)

/-- `_ensure_unique_api_key(account, existing_keys)` (account_manager.py,
lines 30–45).  Returns the updated account, the grown key set, the
"updated" boolean the Python function returns, and the next draw index;
`keyExhausted` models the RuntimeError after 20 failed draws. -/
def _ensure_unique_api_key (rand : Nat → Nat) (d : Nat) (account : Dict)
    (keys : List Value) : Res (Dict × List Value × Bool × Nat) :=
  let currentKey := dictGet account "api_key"
  if truthy currentKey ∧ currentKey ∉ keys then
    Except.ok (account, currentKey :: keys, false, d)
  else
    match drawLoop rand keys 20 d with
    | some (c, d') =>
        Except.ok (dictSet account "api_key" (Value.str c), Value.str c :: keys, true, d')
    | Option.none => Except.error PyError.keyExhausted

/-- State threaded through the per-account loop of `ensure_default_account`:
the records already processed, the accumulated key set, whether anything
that forces a save happened, whether an admin-flagged record was seen, and
the next draw index. -/
structure HealState where
  done : List Dict
  keys : List Value
  updated : Bool
  adminFound : Bool
  idx : Nat
deriving Repr

/-- One iteration of the `for account in accounts` loop of
`ensure_default_account` (account_manager.py, lines 61–88). -/
def healStep (cfg : Config) (st : HealState) (account : Dict) : Res HealState :=
  if truthy (dictGet account "is_admin") then
    match _ensure_unique_api_key cfg.rand st.idx
      (dictUpdate account
        [("username", Value.str cfg.adminUsername),
         ("password_hash", Value.str (cfg.hash cfg.adminPassword)),
         ("is_admin", Value.bool true),
         ("disabled", Value.bool false)]) st.keys with
    | Except.ok (a', keys', changed, idx') =>
        Except.ok { done := st.done ++ [a'], keys := keys',
                    updated := st.updated || changed, adminFound := true, idx := idx' }
    | Except.error e => Except.error e
  else if dictGet account "username" = Value.str cfg.adminUsername then
    match _ensure_unique_api_key cfg.rand st.idx
      (dictUpdate account
        [("is_admin", Value.bool true),
         ("password_hash", Value.str (cfg.hash cfg.adminPassword)),
         ("disabled", Value.bool false)]) st.keys with
    | Except.ok (a', keys', changed, idx') =>
        Except.ok { done := st.done ++ [a'], keys := keys',
                    updated := st.updated || changed, adminFound := true, idx := idx' }
    | Except.error e => Except.error e
  else
    match _ensure_unique_api_key cfg.rand st.idx account st.keys with
    | Except.ok (a', keys', changed, idx') =>
        Except.ok { done := st.done ++ [a'], keys := keys',
                    updated := st.updated || changed, adminFound := st.adminFound, idx := idx' }
    | Except.error e => Except.error e

/-- The whole `for account in accounts` loop. -/
def healLoop (cfg : Config) (st : HealState) : List Dict → Res HealState
  | [] => Except.ok st
  | a :: rest =>
    match healStep cfg st a with
    | Except.ok st' => healLoop cfg st' rest
    | Except.error e => Except.error e

/-- The brand-new admin record appended when no admin-flagged or
admin-named record exists (account_manager.py, lines 90–97). -/
def newAdminDict (cfg : Config) : Dict :=
  [("username", Value.str cfg.adminUsername),
   ("password_hash", Value.str (cfg.hash cfg.adminPassword)),
   ("is_admin", Value.bool true),
   ("disabled", Value.bool false),
   ("created_at", Value.nat cfg.now),
   ("api_key", Value.str "")]

/-- `ensure_default_account()` (account_manager.py, lines 48–116) as a
function of the persisted list `stored`.  Returns the list persisted after
the call together with (on success) the in-memory list the Python function
returns and the next draw index.  The persisted list equals `stored` unless
the function reached one of its `_save_accounts` calls. -/
def ensure_default_account (cfg : Config) (idx : Nat) (stored : List Dict) :
    List Dict × Res (List Dict × Nat) :=
  if stored = [] then
    match _ensure_unique_api_key cfg.rand idx (newAdminDict cfg) [] with
    | Except.ok (a, _, _, idx') => ([a], Except.ok ([a], idx'))
    | Except.error e => (stored, Except.error e)
  else
    match healLoop cfg { done := [], keys := [], updated := false,
                         adminFound := false, idx := idx } stored with
    | Except.error e => (stored, Except.error e)
    | Except.ok st =>
      if st.adminFound then
        let persisted := if st.updated then st.done else stored
        (persisted, Except.ok (st.done, st.idx))
      else
        match _ensure_unique_api_key cfg.rand st.idx (newAdminDict cfg) st.keys with
        | Except.ok (a, _, _, idx') =>
            (st.done ++ [a], Except.ok (st.done ++ [a], idx'))
        | Except.error e => (stored, Except.error e)

/-- `_find_account(username, accounts)` (account_manager.py, lines 184–188). -/
def _find_account (username : String) : List Dict → Option Dict
  | [] => Option.none
  | a :: rest =>
    if dictGet a "username" = Value.str username then some a
    else _find_account username rest

/-- The sanitized view built by `list_accounts(include_sensitive=False)`
(account_manager.py, lines 126–134). -/
def sanitizeAccount (a : Dict) : Dict :=
  [("username", dictGet a "username"),
   ("is_admin", dictGetD a "is_admin" (Value.bool false)),
   ("disabled", dictGetD a "disabled" (Value.bool false)),
   ("last_login", dictGet a "last_login"),
   ("last_call", dictGet a "last_call")]

/-- `list_accounts(include_sensitive)` (account_manager.py, lines 119–135). -/
def list_accounts (cfg : Config) (idx : Nat) (stored : List Dict)
    (includeSensitive : Bool) : List Dict × Res (List Dict × Nat) :=
  match ensure_default_account cfg idx stored with
  | (s1, Except.error e) => (s1, Except.error e)
  | (s1, Except.ok (accounts, idx1)) =>
    if includeSensitive then (s1, Except.ok (accounts, idx1))
    else (s1, Except.ok (accounts.map sanitizeAccount, idx1))

/-- All truthy `api_key` values of a list, the set
`{account.get("api_key") for account in accounts if account.get("api_key")}`. -/
def apiKeySet (accounts : List Dict) : List Value :=
  accounts.filterMap (fun a =>
    if truthy (dictGet a "api_key") then some (dictGet a "api_key") else Option.none)

/-- The body of the `for account in accounts` loop of `upsert_account`
(account_manager.py, lines 147–158): update the first record matching
`username` and stop.  Returns `none` when no record matched. -/
def upsertMatch (cfg : Config) (idx : Nat) (username : String) (pwHash : String)
    (isAdmin disabled : Bool) (keys : List Value) :
    List Dict → Res (Option (List Dict × Nat))
  | [] => Except.ok Option.none
  | a :: rest =>
    if dictGet a "username" = Value.str username then
      match _ensure_unique_api_key cfg.rand idx
        (dictUpdate a
          [("password_hash", Value.str pwHash),
           ("is_admin", Value.bool isAdmin),
           ("disabled", Value.bool disabled)]) keys with
      | Except.ok (a', _, _, idx') => Except.ok (some (a' :: rest, idx'))
      | Except.error e => Except.error e
    else
      match upsertMatch cfg idx username pwHash isAdmin disabled keys rest with
      | Except.ok (some (rest', idx')) => Except.ok (some (a :: rest', idx'))
      | Except.ok Option.none => Except.ok Option.none
      | Except.error e => Except.error e

/-- `upsert_account(username, password, is_admin, disabled)`
(account_manager.py, lines 138–171). -/
def upsert_account (cfg : Config) (idx : Nat) (stored : List Dict)
    (username password : String) (isAdmin disabled : Bool) :
    List Dict × Res Nat :=
  match ensure_default_account cfg idx stored with
  | (s1, Except.error e) => (s1, Except.error e)
  | (s1, Except.ok (accounts, idx1)) =>
    let pwHash := cfg.hash password
    let keys := apiKeySet accounts
    match upsertMatch cfg idx1 username pwHash isAdmin disabled keys accounts with
    | Except.error e => (s1, Except.error e)
    | Except.ok (some (accounts', idx2)) => (accounts', Except.ok idx2)
    | Except.ok Option.none =>
      let newAccount : Dict :=
        [("username", Value.str username),
         ("password_hash", Value.str pwHash),
         ("is_admin", Value.bool isAdmin),
         ("disabled", Value.bool disabled),
         ("created_at", Value.nat cfg.now)]
      match _ensure_unique_api_key cfg.rand idx1 newAccount keys with
      | Except.ok (a', _, _, idx2) => (accounts ++ [a'], Except.ok idx2)
      | Except.error e => (s1, Except.error e)

/-- `remove_account(username)` (account_manager.py, lines 174–181). -/
def remove_account (cfg : Config) (idx : Nat) (stored : List Dict)
    (username : String) : List Dict × Res Nat :=
  match ensure_default_account cfg idx stored with
  | (s1, Except.error e) => (s1, Except.error e)
  | (s1, Except.ok (accounts, idx1)) =>
    let filtered := accounts.filter (fun a => !(dictGet a "username" = Value.str username))
    if filtered = [] then (s1, Except.error PyError.lastAccount)
    else (filtered, Except.ok idx1)

/-- The value `authenticate` returns: a success flag plus either the
"newly created" flag or a failure reason. -/
inductive AuthResult where
  | success : Bool → AuthResult      -- {"success": True, "created": b}
  | failure : String → AuthResult    -- {"success": False, "reason": r}
deriving DecidableEq, Repr

/-- `authenticate(username, password)` (account_manager.py, lines 191–206). -/
def authenticate (cfg : Config) (idx : Nat) (stored : List Dict)
    (username password : String) : List Dict × Res (AuthResult × Nat) :=
  match ensure_default_account cfg idx stored with
  | (s1, Except.error e) => (s1, Except.error e)
  | (s1, Except.ok (accounts, idx1)) =>
    match _find_account username accounts with
    | Option.none =>
      match upsert_account cfg idx1 s1 username password false false with
      | (s2, Except.error e) => (s2, Except.error e)
      | (s2, Except.ok idx2) => (s2, Except.ok (AuthResult.success true, idx2))
    | some account =>
      if truthy (dictGet account "disabled") then
        (s1, Except.ok (AuthResult.failure "disabled", idx1))
      else if dictGet account "password_hash" = Value.str (cfg.hash password) then
        (s1, Except.ok (AuthResult.success false, idx1))
      else
        (s1, Except.ok (AuthResult.failure "password_mismatch", idx1))

/-- `set_disabled(username, disabled)` (account_manager.py, lines 221–226):
flips the flag on every matching record, then persists. -/
def set_disabled (cfg : Config) (idx : Nat) (stored : List Dict)
    (username : String) (disabled : Bool) : List Dict × Res Nat :=
  match ensure_default_account cfg idx stored with
  | (s1, Except.error e) => (s1, Except.error e)
  | (_, Except.ok (accounts, idx1)) =>
    (accounts.map (fun a =>
      if dictGet a "username" = Value.str username
      then dictSet a "disabled" (Value.bool disabled) else a),
     Except.ok idx1)

/-- Stamp `field` with `v` on the first record whose username matches, the
`for … break` loops of `update_last_login` / `update_last_call`. -/
def stampFirst (username field : String) (v : Value) : List Dict → List Dict
  | [] => []
  | a :: rest =>
    if dictGet a "username" = Value.str username then dictSet a field v :: rest
    else a :: stampFirst username field v rest

/-- `update_last_login(username)` (account_manager.py, lines 234–242). -/
def update_last_login (cfg : Config) (idx : Nat) (stored : List Dict)
    (username : String) : List Dict × Res Nat :=
  if username = "" then (stored, Except.ok idx)
  else
    match ensure_default_account cfg idx stored with
    | (s1, Except.error e) => (s1, Except.error e)
    | (_, Except.ok (accounts, idx1)) =>
      (stampFirst username "last_login" (Value.nat cfg.now) accounts, Except.ok idx1)

/-- `update_last_call(username)` (account_manager.py, lines 245–253). -/
def update_last_call (cfg : Config) (idx : Nat) (stored : List Dict)
    (username : String) : List Dict × Res Nat :=
  if username = "" then (stored, Except.ok idx)
  else
    match ensure_default_account cfg idx stored with
    | (s1, Except.error e) => (s1, Except.error e)
    | (_, Except.ok (accounts, idx1)) =>
      (stampFirst username "last_call" (Value.nat cfg.now) accounts, Except.ok idx1)

/-- The `for account in accounts` loop of `refresh_api_key`: refresh the
first record matching `username`; `none` when no record matched. -/
def refreshMatch (cfg : Config) (idx : Nat) (username : String)
    (keys : List Value) : List Dict → Res (Option (List Dict × Value × Nat))
  | [] => Except.ok Option.none
  | a :: rest =>
    if dictGet a "username" = Value.str username then
      match _ensure_unique_api_key cfg.rand idx a keys with
      | Except.ok (a', _, _, idx') =>
          Except.ok (some (a' :: rest, dictGetD a' "api_key" (Value.str ""), idx'))
      | Except.error e => Except.error e
    else
      match refreshMatch cfg idx username keys rest with
      | Except.ok (some (rest', v, idx')) => Except.ok (some (a :: rest', v, idx'))
      | Except.ok Option.none => Except.ok Option.none
      | Except.error e => Except.error e

/-- `refresh_api_key(username)` (account_manager.py, lines 256–264). -/
def refresh_api_key (cfg : Config) (idx : Nat) (stored : List Dict)
    (username : String) : List Dict × Res (Value × Nat) :=
  match ensure_default_account cfg idx stored with
  | (s1, Except.error e) => (s1, Except.error e)
  | (s1, Except.ok (accounts, idx1)) =>
    let keys := apiKeySet accounts
    match refreshMatch cfg idx1 username keys accounts with
    | Except.error e => (s1, Except.error e)
    | Except.ok (some (accounts', v, idx2)) => (accounts', Except.ok (v, idx2))
    | Except.ok Option.none => (s1, Except.error PyError.userNotFound)

/-! ### Storage adapter and namespace registry (storage_adapter.py) -/

/-- The storage backend variants tried by the adapter. -/
inductive Variant where
  | redis | postgres | mongo | file
deriving DecidableEq, Repr

/-- What happens when the adapter tries one optional variant: the import
fails, the constructor raises, the constructed backend's own init method
raises, or everything succeeds. -/
inductive AttemptOutcome where
  | importError | constructError | initRaises | ok
deriving DecidableEq, Repr

/-- The environment of one `StorageAdapter.initialize` run: which connection
strings are configured and how each variant behaves. -/
structure AdapterEnv where
  redis_uri : Bool
  postgres_dsn : Bool
  mongodb_uri : Bool
  redisAttempt : AttemptOutcome
  postgresAttempt : AttemptOutcome
  mongoAttempt : AttemptOutcome
  fileOk : Bool
deriving Repr

/-- A bound backend: which variant `self._backend` holds and whether that
backend's own init method completed. -/
structure Backend where
  variant : Variant
  initOk : Bool
deriving DecidableEq, Repr

/-- The adapter state after `StorageAdapter.initialize` returns. -/
structure AdapterState where
  backend : Option Backend
  initDone : Bool
deriving DecidableEq, Repr

/-- One guarded `try` block (storage_adapter.py, lines 112–124 etc.):
on an import or constructor failure `self._backend` is never assigned; on a
failure inside the backend's own init method the assignment has already
happened, so `self._backend` keeps the broken instance while the exception
is caught and logged. -/
def tryVariant (v : Variant) (outcome : AttemptOutcome) : Option Backend :=
  match outcome with
  | AttemptOutcome.importError => Option.none
  | AttemptOutcome.constructError => Option.none
  | AttemptOutcome.initRaises => some { variant := v, initOk := false }
  | AttemptOutcome.ok => some { variant := v, initOk := true }

/-- `StorageAdapter.initialize()` (storage_adapter.py, lines 101–165) for a
first call (the `_initialized` early return and the lock are not modelled:
this is the single-run selection logic).  The file branch has no `try`
guard, so a file failure propagates as an exception (`Except.error`). -/
def adapterInit (env : AdapterEnv) : Except Unit AdapterState :=
  let backend : Option Backend := Option.none
  let backend := if env.redis_uri then tryVariant Variant.redis env.redisAttempt else backend
  let backend := if backend.isNone && env.postgres_dsn then
      tryVariant Variant.postgres env.postgresAttempt else backend
  let backend := if backend.isNone && env.mongodb_uri then
      tryVariant Variant.mongo env.mongoAttempt else backend
  match backend with
  | some b => Except.ok { backend := some b, initDone := true }
  | Option.none =>
    if env.fileOk then
      Except.ok { backend := some { variant := Variant.file, initOk := true }, initDone := true }
    else Except.error ()

/-- The process-wide adapter registry plus the ambient-namespace context
variable (storage_adapter.py, lines 353–394).  Adapters are identified by
the `Nat` id they were created with. -/
structure Registry where
  adapters : List (String × Nat)
  nextId : Nat
  ambient : Option String
deriving Repr

/-- Lookup in the registry map. -/
def regFind (l : List (String × Nat)) (k : String) : Option Nat :=
  match l with
  | [] => Option.none
  | (k', v) :: rest => if k' = k then some v else regFind rest k

/-- `_get_namespace_key(namespace)`: `namespace or "__default__"`, so both
`None` and the empty string map to the default key. -/
def _get_namespace_key (ns : Option String) : String :=
  match ns with
  | some s => if s = "" then "__default__" else s
  | Option.none => "__default__"

/-- `set_active_namespace(namespace)`. -/
def set_active_namespace (reg : Registry) (ns : Option String) : Registry :=
  { reg with ambient := ns }

/-- `get_storage_adapter(namespace)` (storage_adapter.py, lines 371–383):
an omitted namespace falls back to the ambient context value. -/
def get_storage_adapter (reg : Registry) (ns : Option String) : Nat × Registry :=
  let active := match ns with
    | some s => some s
    | Option.none => reg.ambient
  let key := _get_namespace_key active
  match regFind reg.adapters key with
  | some id => (id, reg)
  | Option.none =>
    (reg.nextId,
     { reg with adapters := reg.adapters ++ [(key, reg.nextId)], nextId := reg.nextId + 1 })

/-- `close_storage_adapter(namespace)` (storage_adapter.py, lines 386–394):
the namespace argument is used directly, the ambient value is not consulted. -/
def close_storage_adapter (reg : Registry) (ns : Option String) : Registry :=
  let key := _get_namespace_key ns
  { reg with adapters := reg.adapters.filter (fun kv => !(kv.1 = key)) }

/-! ### Dictionary lemmas -/

theorem dictFind_dictSet (d : Dict) (k k' : String) (v : Value) :
    dictFind (dictSet d k v) k' = if k = k' then some v else dictFind d k' := by
  induction d with
  | nil => simp [dictSet, dictFind]
  | cons kv rest ih =>
    obtain ⟨k₀, v₀⟩ := kv
    by_cases h₀ : k₀ = k
    · subst h₀
      by_cases h₁ : k₀ = k'
      · subst h₁; simp [dictSet, dictFind]
      · simp [dictSet, dictFind, h₁]
    · by_cases h₁ : k₀ = k'
      · subst h₁
        have : ¬ k = k₀ := fun h => h₀ h.symm
        simp [dictSet, dictFind, h₀, this]
      · simp [dictSet, dictFind, h₀, h₁, ih]

theorem dictGet_dictSet_self (d : Dict) (k : String) (v : Value) :
    dictGet (dictSet d k v) k = v := by
  simp [dictGet, dictFind_dictSet]

theorem dictGet_dictSet_ne (d : Dict) (k k' : String) (v : Value) (h : k ≠ k') :
    dictGet (dictSet d k v) k' = dictGet d k' := by
  simp [dictGet, dictFind_dictSet, h]

theorem dictGetD_dictSet_ne (d : Dict) (k k' : String) (v dflt : Value) (h : k ≠ k') :
    dictGetD (dictSet d k v) k' dflt = dictGetD d k' dflt := by
  simp [dictGetD, dictFind_dictSet, h]

/-! ### `_ensure_unique_api_key` characterization -/

/-- The `api_key` value of a record. -/
def keyOf (a : Dict) : Value := dictGet a "api_key"

theorem mkCandidate_length (rand : Nat → Nat) (d : Nat) :
    (mkCandidate rand d).length = API_KEY_LENGTH := by
  simp [mkCandidate, String.length]

theorem mkCandidate_ne_empty (rand : Nat → Nat) (d : Nat) :
    mkCandidate rand d ≠ "" := by
  intro h
  have h' := congrArg String.length h
  rw [mkCandidate_length] at h'
  simp [API_KEY_LENGTH, String.length] at h'

theorem mkCandidate_mem_alphabet (rand : Nat → Nat) (d : Nat) :
    ∀ c ∈ (mkCandidate rand d).data, c ∈ API_KEY_CHARS.data := by
  intro c hc
  simp only [mkCandidate, String.mk, List.mem_map] at hc
  obtain ⟨i, _, rfl⟩ := hc
  unfold secretsChoice
  have hlen : API_KEY_CHARS.toList.length ≠ 0 := by decide
  have hlt : rand (API_KEY_LENGTH * d + i) % API_KEY_CHARS.toList.length
      < API_KEY_CHARS.toList.length := Nat.mod_lt _ (Nat.pos_of_ne_zero hlen)
  rw [List.getD_eq_getElem _ _ hlt]
  exact List.getElem_mem hlt

theorem drawLoop_none_iff (rand : Nat → Nat) (keys : List Value) :
    ∀ fuel d, drawLoop rand keys fuel d = Option.none ↔
      ∀ j < fuel, Value.str (mkCandidate rand (d + j)) ∈ keys := by
  intro fuel
  induction fuel with
  | zero => intro d; simp [drawLoop]
  | succ n ih =>
    intro d
    simp only [drawLoop]
    by_cases h : Value.str (mkCandidate rand d) ∈ keys
    · simp only [h, if_pos]
      rw [ih (d + 1)]
      constructor
      · intro hall j hj
        match j, hj with
        | 0, _ => simpa using h
        | j + 1, hj =>
          have := hall j (by omega)
          simpa [Nat.add_comm, Nat.add_left_comm] using this
      · intro hall j hj
        have := hall (j + 1) (by omega)
        simpa [Nat.add_comm, Nat.add_left_comm] using this
    · simp only [h, if_neg, not_false_iff]
      constructor
      · intro hcontra; exact absurd hcontra (by simp)
      · intro hall
        exact absurd (by simpa using hall 0 (by omega)) h

theorem drawLoop_some (rand : Nat → Nat) (keys : List Value) :
    ∀ fuel d c d', drawLoop rand keys fuel d = some (c, d') →
      ∃ j < fuel, c = mkCandidate rand (d + j) ∧ d' = d + j + 1 ∧
        Value.str c ∉ keys ∧ ∀ i < j, Value.str (mkCandidate rand (d + i)) ∈ keys := by
  intro fuel
  induction fuel with
  | zero => intro d c d' h; simp [drawLoop] at h
  | succ n ih =>
    intro d c d' h
    simp only [drawLoop] at h
    by_cases hmem : Value.str (mkCandidate rand d) ∈ keys
    · rw [if_pos hmem] at h
      obtain ⟨j, hj, hc, hd', hnot, hall⟩ := ih (d + 1) c d' h
      refine ⟨j + 1, by omega, ?_, by omega, hnot, ?_⟩
      · rw [hc]; ring_nf
      · intro i hi
        match i, hi with
        | 0, _ => simpa using hmem
        | i + 1, hi =>
          have := hall i (by omega)
          simpa [Nat.add_comm, Nat.add_left_comm] using this
    · rw [if_neg hmem] at h
      refine ⟨0, by omega, ?_, ?_, ?_, by omega⟩
      · simpa using congrArg Prod.fst (Option.some.inj h).symm
      · have := congrArg Prod.snd (Option.some.inj h); simp at this; omega
      · have hc : c = mkCandidate rand d := by
          simpa using congrArg Prod.fst (Option.some.inj h).symm
        rw [hc]; exact hmem

/-- Full case analysis of a successful `_ensure_unique_api_key` call: either
the held key was kept unchanged, or a fresh draw was assigned. -/
theorem euk_ok_cases (rand : Nat → Nat) (d : Nat) (account a' : Dict)
    (keys keys' : List Value) (changed : Bool) (d' : Nat)
    (h : _ensure_unique_api_key rand d account keys =
      Except.ok (a', keys', changed, d')) :
    (changed = false ∧ a' = account ∧ truthy (keyOf account) ∧
      keyOf account ∉ keys ∧ keys' = keyOf account :: keys ∧ d' = d) ∨
    (changed = true ∧ ∃ c : String, c ≠ "" ∧ Value.str c ∉ keys ∧
      a' = dictSet account "api_key" (Value.str c) ∧
      keys' = Value.str c :: keys) := by
  unfold _ensure_unique_api_key at h
  by_cases hkeep : truthy (dictGet account "api_key") ∧ dictGet account "api_key" ∉ keys
  · rw [if_pos hkeep] at h
    left
    have heq := Except.ok.inj h
    have h1 : account = a' := congrArg Prod.fst heq
    have h2 : dictGet account "api_key" :: keys = keys' :=
      congrArg (fun x => x.2.1) heq
    have h3 : false = changed := congrArg (fun x => x.2.2.1) heq
    have h4 : d = d' := congrArg (fun x => x.2.2.2) heq
    exact ⟨h3.symm, h1.symm, hkeep.1, hkeep.2, h2.symm, h4.symm⟩
  · rw [if_neg hkeep] at h
    cases hdraw : drawLoop rand keys 20 d with
    | none => rw [hdraw] at h; exact absurd h (by simp)
    | some cd =>
      obtain ⟨c, dnext⟩ := cd
      rw [hdraw] at h
      obtain ⟨j, _, hc, _, hnot, _⟩ := drawLoop_some rand keys 20 d c dnext hdraw
      have heq := Except.ok.inj h
      right
      refine ⟨(congrArg (fun x => x.2.2.1) heq).symm, c, ?_, hnot, ?_, ?_⟩
      · rw [hc]; exact mkCandidate_ne_empty rand (d + j)
      · exact (congrArg Prod.fst heq).symm
      · exact (congrArg (fun x => x.2.1) heq).symm

/-- A successful `_ensure_unique_api_key` call leaves every field other
than `api_key` unchanged. -/
theorem euk_preserves (rand : Nat → Nat) (d : Nat) (account a' : Dict)
    (keys keys' : List Value) (changed : Bool) (d' : Nat)
    (h : _ensure_unique_api_key rand d account keys =
      Except.ok (a', keys', changed, d'))
    (k : String) (hk : k ≠ "api_key") : dictGet a' k = dictGet account k := by
  rcases euk_ok_cases rand d account a' keys keys' changed d' h with
    ⟨_, rfl, _⟩ | ⟨_, c, _, _, rfl, _⟩
  · rfl
  · exact dictGet_dictSet_ne account "api_key" k (Value.str c) (fun h' => hk h'.symm)

/-- After a successful `_ensure_unique_api_key` call the account holds a
truthy key absent from the input key set, and the key set has grown by
exactly that key. -/
theorem euk_key_fresh (rand : Nat → Nat) (d : Nat) (account a' : Dict)
    (keys keys' : List Value) (changed : Bool) (d' : Nat)
    (h : _ensure_unique_api_key rand d account keys =
      Except.ok (a', keys', changed, d')) :
    truthy (keyOf a') ∧ keyOf a' ∉ keys ∧ keys' = keyOf a' :: keys := by
  rcases euk_ok_cases rand d account a' keys keys' changed d' h with
    ⟨_, rfl, ht, hn, hk, _⟩ | ⟨_, c, hc, hn, rfl, hk⟩
  · exact ⟨ht, hn, hk⟩
  · refine ⟨?_, ?_, ?_⟩ <;>
      simp [keyOf, dictGet_dictSet_self, truthy, hc, hn, hk]

/-- An unchanged-reporting `_ensure_unique_api_key` call returns the account
untouched with the same draw index. -/
theorem euk_unchanged (rand : Nat → Nat) (d : Nat) (account a' : Dict)
    (keys keys' : List Value) (d' : Nat)
    (h : _ensure_unique_api_key rand d account keys =
      Except.ok (a', keys', false, d')) : a' = account ∧ d' = d := by
  rcases euk_ok_cases rand d account a' keys keys' false d' h with
    ⟨_, rfl, _, _, _, rfl⟩ | ⟨hcontra, _⟩
  · exact ⟨rfl, rfl⟩
  · exact absurd hcontra (by simp)

/-! ### Admin-sync predicates -/

/-- Python truthiness of the stored `is_admin` field. -/
def isAdminFlagged (a : Dict) : Bool := truthy (dictGet a "is_admin")

/-- Number of admin-flagged records. -/
def adminCount (l : List Dict) : Nat := (l.filter (fun a => isAdminFlagged a)).length

/-- The record carries the externally configured admin username and the hash
of the configured admin password. -/
def adminIdentityOk (cfg : Config) (a : Dict) : Prop :=
  dictGet a "username" = Value.str cfg.adminUsername ∧
  dictGet a "password_hash" = Value.str (cfg.hash cfg.adminPassword)

instance (cfg : Config) (a : Dict) : Decidable (adminIdentityOk cfg a) := by
  unfold adminIdentityOk; infer_instance

/-- Exactly one record is admin-flagged, and every admin-flagged record
matches the configured admin identity: the property of claim C1. -/
def adminSynced (cfg : Config) (l : List Dict) : Prop :=
  adminCount l = 1 ∧ ∀ a ∈ l, isAdminFlagged a → adminIdentityOk cfg a

instance (cfg : Config) (l : List Dict) : Decidable (adminSynced cfg l) := by
  unfold adminSynced; infer_instance

/-- A record that triggers the admin branch of the heal loop: it is
admin-flagged, or it carries the configured admin username. -/
def eligible (cfg : Config) (a : Dict) : Bool :=
  isAdminFlagged a || decide (dictGet a "username" = Value.str cfg.adminUsername)

/-- Number of records triggering the admin branch. -/
def eligCount (cfg : Config) (l : List Dict) : Nat := (l.filter (eligible cfg)).length

theorem eligible_eq_false_iff (cfg : Config) (a : Dict) :
    eligible cfg a = false ↔
      isAdminFlagged a = false ∧ dictGet a "username" ≠ Value.str cfg.adminUsername := by
  simp [eligible]

/-! ### The heal-loop step: full case analysis -/

/-- Everything a successful `healStep` guarantees about the record it
appended: key freshness, the admin identity overwrite on an eligible
record, field preservation on a plain one, and exactness when nothing was
updated. -/
theorem healStep_ok_spec (cfg : Config) (st st' : HealState) (a : Dict)
    (h : healStep cfg st a = Except.ok st') :
    ∃ a', st'.done = st.done ++ [a'] ∧ st'.keys = keyOf a' :: st.keys ∧
      truthy (keyOf a') ∧ keyOf a' ∉ st.keys ∧
      (st'.updated = false →
        st.updated = false ∧ st'.idx = st.idx ∧ keyOf a' = keyOf a) ∧
      (eligible cfg a = true →
        st'.adminFound = true ∧ isAdminFlagged a' = true ∧
        adminIdentityOk cfg a' ∧ dictGet a' "disabled" = Value.bool false) ∧
      (eligible cfg a = false →
        st'.adminFound = st.adminFound ∧
        ∀ k, k ≠ "api_key" → dictGet a' k = dictGet a k) ∧
      (truthy (keyOf a) → keyOf a ∉ st.keys →
        keyOf a' = keyOf a ∧ st'.keys = keyOf a :: st.keys ∧
        st'.updated = st.updated ∧ st'.idx = st.idx ∧
        (eligible cfg a = false → a' = a)) := by
  unfold healStep at h
  by_cases hadm : truthy (dictGet a "is_admin")
  · rw [if_pos hadm] at h
    set upd := dictUpdate a
      [("username", Value.str cfg.adminUsername),
       ("password_hash", Value.str (cfg.hash cfg.adminPassword)),
       ("is_admin", Value.bool true),
       ("disabled", Value.bool false)] with hupd
    cases heuk : _ensure_unique_api_key cfg.rand st.idx upd st.keys with
    | error e => rw [heuk] at h; exact absurd h (by simp)
    | ok out =>
      obtain ⟨a', keys', changed, idx'⟩ := out
      rw [heuk] at h
      have hst' := (Except.ok.inj h).symm
      have hkey : keyOf upd = keyOf a := by
        simp [hupd, keyOf, dictUpdate, dictGet_dictSet_ne]
      have hfresh := euk_key_fresh cfg.rand st.idx upd a' st.keys keys' changed idx' heuk
      have helig : eligible cfg a = true := by
        simp [eligible, isAdminFlagged, hadm]
      refine ⟨a', by rw [hst'], by rw [hst']; exact hfresh.2.2,
        hfresh.1, hfresh.2.1, ?_, ?_, ?_, ?_⟩
      · intro hupdf
        rw [hst'] at hupdf
        simp only at hupdf
        have hch : changed = false := by
          cases hcc : changed with
          | false => rfl
          | true => rw [hcc] at hupdf; simp at hupdf
        have hun := euk_unchanged cfg.rand st.idx upd a' st.keys keys' idx'
          (by rw [hch] at heuk; exact heuk)
        subst hch
        refine ⟨by simpa using hupdf, by rw [hst']; exact hun.2, ?_⟩
        rw [hun.1, hkey]
      · intro _
        refine ⟨by rw [hst'], ?_, ?_, ?_⟩
        · have := euk_preserves cfg.rand st.idx upd a' st.keys keys' changed idx'
            heuk "is_admin" (by decide)
          simp only [isAdminFlagged, this]
          simp [hupd, dictUpdate, dictGet_dictSet_self, dictGet_dictSet_ne, truthy]
        · constructor
          · have := euk_preserves cfg.rand st.idx upd a' st.keys keys' changed idx'
              heuk "username" (by decide)
            rw [this]
            simp [hupd, dictUpdate, dictGet_dictSet_self, dictGet_dictSet_ne]
          · have := euk_preserves cfg.rand st.idx upd a' st.keys keys' changed idx'
              heuk "password_hash" (by decide)
            rw [this]
            simp [hupd, dictUpdate, dictGet_dictSet_self, dictGet_dictSet_ne]
        · have := euk_preserves cfg.rand st.idx upd a' st.keys keys' changed idx'
            heuk "disabled" (by decide)
          rw [this]
          simp [hupd, dictUpdate, dictGet_dictSet_self, dictGet_dictSet_ne]
      · intro hcontra; rw [hcontra] at helig; exact absurd helig (by simp)
      · intro htr hnot
        have hkeep : truthy (dictGet upd "api_key") ∧ dictGet upd "api_key" ∉ st.keys := by
          constructor
          · show truthy (keyOf upd); rw [hkey]; exact htr
          · show keyOf upd ∉ st.keys; rw [hkey]; exact hnot
        unfold _ensure_unique_api_key at heuk
        rw [if_pos hkeep] at heuk
        have heq := Except.ok.inj heuk
        have ha' : upd = a' := congrArg Prod.fst heq
        have hks : dictGet upd "api_key" :: st.keys = keys' := congrArg (fun x => x.2.1) heq
        have hch : false = changed := congrArg (fun x => x.2.2.1) heq
        have hd : st.idx = idx' := congrArg (fun x => x.2.2.2) heq
        refine ⟨by rw [← ha', hkey], ?_, ?_, ?_, ?_⟩
        · rw [hst']; simp only []; rw [← hks]
          show keyOf upd :: st.keys = keyOf a :: st.keys
          rw [hkey]
        · rw [hst']; simp only []; rw [← hch]; simp
        · rw [hst']; simp only []; exact hd.symm
        · intro hcontra; rw [hcontra] at helig; exact absurd helig (by simp)
  · rw [if_neg hadm] at h
    by_cases hname : dictGet a "username" = Value.str cfg.adminUsername
    · rw [if_pos hname] at h
      set upd := dictUpdate a
        [("is_admin", Value.bool true),
         ("password_hash", Value.str (cfg.hash cfg.adminPassword)),
         ("disabled", Value.bool false)] with hupd
      cases heuk : _ensure_unique_api_key cfg.rand st.idx upd st.keys with
      | error e => rw [heuk] at h; exact absurd h (by simp)
      | ok out =>
        obtain ⟨a', keys', changed, idx'⟩ := out
        rw [heuk] at h
        have hst' := (Except.ok.inj h).symm
        have hkey : keyOf upd = keyOf a := by
          simp [hupd, keyOf, dictUpdate, dictGet_dictSet_ne]
        have hfresh := euk_key_fresh cfg.rand st.idx upd a' st.keys keys' changed idx' heuk
        have helig : eligible cfg a = true := by
          simp [eligible, hname]
        refine ⟨a', by rw [hst'], by rw [hst']; exact hfresh.2.2,
          hfresh.1, hfresh.2.1, ?_, ?_, ?_, ?_⟩
        · intro hupdf
          rw [hst'] at hupdf
          simp only at hupdf
          have hch : changed = false := by
            cases hcc : changed with
            | false => rfl
            | true => rw [hcc] at hupdf; simp at hupdf
          have hun := euk_unchanged cfg.rand st.idx upd a' st.keys keys' idx'
            (by rw [hch] at heuk; exact heuk)
          subst hch
          refine ⟨by simpa using hupdf, by rw [hst']; exact hun.2, ?_⟩
          rw [hun.1, hkey]
        · intro _
          refine ⟨by rw [hst'], ?_, ?_, ?_⟩
          · have := euk_preserves cfg.rand st.idx upd a' st.keys keys' changed idx'
              heuk "is_admin" (by decide)
            simp only [isAdminFlagged, this]
            simp [hupd, dictUpdate, dictGet_dictSet_self, dictGet_dictSet_ne, truthy]
          · constructor
            · have := euk_preserves cfg.rand st.idx upd a' st.keys keys' changed idx'
                heuk "username" (by decide)
              rw [this]
              simpa [hupd, dictUpdate, dictGet_dictSet_ne] using hname
            · have := euk_preserves cfg.rand st.idx upd a' st.keys keys' changed idx'
                heuk "password_hash" (by decide)
              rw [this]
              simp [hupd, dictUpdate, dictGet_dictSet_self, dictGet_dictSet_ne]
          · have := euk_preserves cfg.rand st.idx upd a' st.keys keys' changed idx'
              heuk "disabled" (by decide)
            rw [this]
            simp [hupd, dictUpdate, dictGet_dictSet_self, dictGet_dictSet_ne]
        · intro hcontra; rw [hcontra] at helig; exact absurd helig (by simp)
        · intro htr hnot
          have hkeep : truthy (dictGet upd "api_key") ∧ dictGet upd "api_key" ∉ st.keys := by
            constructor
            · show truthy (keyOf upd); rw [hkey]; exact htr
            · show keyOf upd ∉ st.keys; rw [hkey]; exact hnot
          unfold _ensure_unique_api_key at heuk
          rw [if_pos hkeep] at heuk
          have heq := Except.ok.inj heuk
          have ha' : upd = a' := congrArg Prod.fst heq
          have hks : dictGet upd "api_key" :: st.keys = keys' := congrArg (fun x => x.2.1) heq
          have hch : false = changed := congrArg (fun x => x.2.2.1) heq
          have hd : st.idx = idx' := congrArg (fun x => x.2.2.2) heq
          refine ⟨by rw [← ha', hkey], ?_, ?_, ?_, ?_⟩
          · rw [hst']; simp only []; rw [← hks]
            show keyOf upd :: st.keys = keyOf a :: st.keys
            rw [hkey]
          · rw [hst']; simp only []; rw [← hch]; simp
          · rw [hst']; simp only []; exact hd.symm
          · intro hcontra; rw [hcontra] at helig; exact absurd helig (by simp)
    · rw [if_neg hname] at h
      cases heuk : _ensure_unique_api_key cfg.rand st.idx a st.keys with
      | error e => rw [heuk] at h; exact absurd h (by simp)
      | ok out =>
        obtain ⟨a', keys', changed, idx'⟩ := out
        rw [heuk] at h
        have hst' := (Except.ok.inj h).symm
        have hfresh := euk_key_fresh cfg.rand st.idx a a' st.keys keys' changed idx' heuk
        have helig : eligible cfg a = false := by
          simp [eligible, isAdminFlagged, hadm, hname]
        refine ⟨a', by rw [hst'], by rw [hst']; exact hfresh.2.2,
          hfresh.1, hfresh.2.1, ?_, ?_, ?_, ?_⟩
        · intro hupdf
          rw [hst'] at hupdf
          simp only at hupdf
          have hch : changed = false := by
            cases hcc : changed with
            | false => rfl
            | true => rw [hcc] at hupdf; simp at hupdf
          have hun := euk_unchanged cfg.rand st.idx a a' st.keys keys' idx'
            (by rw [hch] at heuk; exact heuk)
          subst hch
          refine ⟨by simpa using hupdf, by rw [hst']; exact hun.2, by rw [hun.1]⟩
        · intro hcontra; rw [hcontra] at helig; exact absurd helig (by simp)
        · intro _
          exact ⟨by rw [hst'],
            fun k hk => euk_preserves cfg.rand st.idx a a' st.keys keys' changed idx' heuk k hk⟩
        · intro htr hnot
          have hkeep : truthy (dictGet a "api_key") ∧ dictGet a "api_key" ∉ st.keys :=
            ⟨htr, hnot⟩
          unfold _ensure_unique_api_key at heuk
          rw [if_pos hkeep] at heuk
          have heq := Except.ok.inj heuk
          have ha' : a = a' := congrArg Prod.fst heq
          have hks : dictGet a "api_key" :: st.keys = keys' := congrArg (fun x => x.2.1) heq
          have hch : false = changed := congrArg (fun x => x.2.2.1) heq
          have hd : st.idx = idx' := congrArg (fun x => x.2.2.2) heq
          refine ⟨by rw [← ha'], ?_, ?_, ?_, fun _ => ha'.symm⟩
          · rw [hst']; simp only []; exact hks.symm
          · rw [hst']; simp only []; rw [← hch]; simp
          · rw [hst']; simp only []; exact hd.symm

/-! ### Heal-loop invariants -/

theorem healLoop_nil_eq (cfg : Config) (st st' : HealState)
    (h : healLoop cfg st [] = Except.ok st') : st = st' :=
  Except.ok.inj h

theorem healLoop_done_prefix (cfg : Config) :
    ∀ (l : List Dict) (st st' : HealState),
      healLoop cfg st l = Except.ok st' → ∃ tail, st'.done = st.done ++ tail := by
  intro l
  induction l with
  | nil =>
    intro st st' h
    have : st = st' := healLoop_nil_eq cfg st st' h
    exact ⟨[], by simp [← this]⟩
  | cons a rest ih =>
    intro st st' h
    simp only [healLoop] at h
    cases hstep : healStep cfg st a with
    | error e => rw [hstep] at h; exact absurd h (by simp)
    | ok st1 =>
      rw [hstep] at h
      obtain ⟨a', hdone, _⟩ := healStep_ok_spec cfg st st1 a hstep
      obtain ⟨tail, htail⟩ := ih st1 st' h
      exact ⟨a' :: tail, by rw [htail, hdone]; simp⟩

theorem healLoop_keyInv (cfg : Config) :
    ∀ (l : List Dict) (st st' : HealState),
      healLoop cfg st l = Except.ok st' →
      (∀ b ∈ st.done, truthy (keyOf b) ∧ keyOf b ∈ st.keys) →
      (st.done.map keyOf).Nodup →
      (∀ b ∈ st'.done, truthy (keyOf b) ∧ keyOf b ∈ st'.keys) ∧
        (st'.done.map keyOf).Nodup := by
  intro l
  induction l with
  | nil =>
    intro st st' h hmem hnd
    have : st = st' := healLoop_nil_eq cfg st st' h
    exact this ▸ ⟨hmem, hnd⟩
  | cons a rest ih =>
    intro st st' h hmem hnd
    simp only [healLoop] at h
    cases hstep : healStep cfg st a with
    | error e => rw [hstep] at h; exact absurd h (by simp)
    | ok st1 =>
      rw [hstep] at h
      obtain ⟨a', hdone, hkeys, htr, hfresh, _⟩ := healStep_ok_spec cfg st st1 a hstep
      refine ih st1 st' h ?_ ?_
      · intro b hb
        rw [hdone] at hb
        rcases List.mem_append.mp hb with hb | hb
        · obtain ⟨h1, h2⟩ := hmem b hb
          exact ⟨h1, by rw [hkeys]; exact List.mem_cons_of_mem _ h2⟩
        · have : b = a' := by simpa using hb
          subst this
          exact ⟨htr, by rw [hkeys]; exact List.mem_cons_self _ _⟩
      · rw [hdone]
        simp only [List.map_append, List.map_cons, List.map_nil]
        rw [List.nodup_append]
        refine ⟨hnd, List.nodup_singleton _, ?_⟩
        intro v hv hw
        simp only [List.mem_singleton] at hw
        subst hw
        obtain ⟨b, hb, hbv⟩ := List.mem_map.mp hv
        exact hfresh (hbv ▸ (hmem b hb).2)

theorem healLoop_unchanged (cfg : Config) :
    ∀ (l : List Dict) (st st' : HealState),
      healLoop cfg st l = Except.ok st' → st'.updated = false →
      st.updated = false ∧ st'.idx = st.idx ∧
        st'.done.map keyOf = st.done.map keyOf ++ l.map keyOf := by
  intro l
  induction l with
  | nil =>
    intro st st' h hupd
    have : st = st' := healLoop_nil_eq cfg st st' h
    subst this
    exact ⟨hupd, rfl, by simp⟩
  | cons a rest ih =>
    intro st st' h hupd
    simp only [healLoop] at h
    cases hstep : healStep cfg st a with
    | error e => rw [hstep] at h; exact absurd h (by simp)
    | ok st1 =>
      rw [hstep] at h
      obtain ⟨hupd1, hidx1, hmap1⟩ := ih st1 st' h hupd
      obtain ⟨a', hdone, _, _, _, hunch, _⟩ := healStep_ok_spec cfg st st1 a hstep
      obtain ⟨hu0, hi0, hk0⟩ := hunch hupd1
      refine ⟨hu0, by rw [hidx1, hi0], ?_⟩
      rw [hmap1, hdone]
      simp [hk0]

theorem healLoop_adminFound_mono (cfg : Config) :
    ∀ (l : List Dict) (st st' : HealState),
      healLoop cfg st l = Except.ok st' → st.adminFound = true →
      st'.adminFound = true := by
  intro l
  induction l with
  | nil =>
    intro st st' h hf
    have : st = st' := healLoop_nil_eq cfg st st' h
    exact this ▸ hf
  | cons a rest ih =>
    intro st st' h hf
    simp only [healLoop] at h
    cases hstep : healStep cfg st a with
    | error e => rw [hstep] at h; exact absurd h (by simp)
    | ok st1 =>
      rw [hstep] at h
      obtain ⟨a', _, _, _, _, _, helig, hplain, _⟩ := healStep_ok_spec cfg st st1 a hstep
      cases he : eligible cfg a with
      | true => exact ih st1 st' h (helig he).1
      | false => exact ih st1 st' h ((hplain he).1.trans hf)

theorem healLoop_admin_exists (cfg : Config) :
    ∀ (l : List Dict) (st st' : HealState),
      healLoop cfg st l = Except.ok st' →
      (st.adminFound = true → ∃ a ∈ st.done, dictGet a "username" = Value.str cfg.adminUsername) →
      st'.adminFound = true →
      ∃ a ∈ st'.done, dictGet a "username" = Value.str cfg.adminUsername := by
  intro l
  induction l with
  | nil =>
    intro st st' h hind hf
    have : st = st' := healLoop_nil_eq cfg st st' h
    exact this ▸ (hind (this ▸ hf))
  | cons a rest ih =>
    intro st st' h hind hf
    simp only [healLoop] at h
    cases hstep : healStep cfg st a with
    | error e => rw [hstep] at h; exact absurd h (by simp)
    | ok st1 =>
      rw [hstep] at h
      obtain ⟨a', hdone, _, _, _, _, helig, hplain, _⟩ := healStep_ok_spec cfg st st1 a hstep
      refine ih st1 st' h ?_ hf
      intro h1f
      cases he : eligible cfg a with
      | true =>
        obtain ⟨_, _, hid, _⟩ := helig he
        exact ⟨a', by rw [hdone]; simp, hid.1⟩
      | false =>
        obtain ⟨b, hb, hbu⟩ := hind ((hplain he).1.symm.trans h1f)
        exact ⟨b, by rw [hdone]; exact List.mem_append_left _ hb, hbu⟩

theorem eligCount_cons (cfg : Config) (a : Dict) (l : List Dict) :
    eligCount cfg (a :: l) =
      (if eligible cfg a then 1 else 0) + eligCount cfg l := by
  by_cases h : eligible cfg a <;> simp [eligCount, List.filter_cons, h, Nat.add_comm]

theorem adminCount_append_one (l : List Dict) (a : Dict) :
    adminCount (l ++ [a]) = adminCount l + (if isAdminFlagged a then 1 else 0) := by
  by_cases h : isAdminFlagged a <;> simp [adminCount, List.filter_append, List.filter_cons, h]

theorem adminCount_eq_zero (l : List Dict) :
    adminCount l = 0 ↔ ∀ a ∈ l, isAdminFlagged a = false := by
  simp [adminCount, List.length_eq_zero, List.filter_eq_nil]

/-- The per-record admin invariant maintained by the heal loop, given that
at most one record in the whole list can trigger the admin branch. -/
theorem healLoop_adminInv (cfg : Config) :
    ∀ (l : List Dict) (st st' : HealState),
      healLoop cfg st l = Except.ok st' →
      eligCount cfg l + (if st.adminFound then 1 else 0) ≤ 1 →
      (st.adminFound = true → adminCount st.done = 1) →
      (st.adminFound = false → adminCount st.done = 0) →
      (∀ a ∈ st.done, isAdminFlagged a → adminIdentityOk cfg a) →
      (∀ a ∈ st.done, isAdminFlagged a = false →
        dictGet a "username" ≠ Value.str cfg.adminUsername) →
      (st'.adminFound = true → adminCount st'.done = 1) ∧
      (st'.adminFound = false → adminCount st'.done = 0) ∧
      (∀ a ∈ st'.done, isAdminFlagged a → adminIdentityOk cfg a) ∧
      (∀ a ∈ st'.done, isAdminFlagged a = false →
        dictGet a "username" ≠ Value.str cfg.adminUsername) := by
  intro l
  induction l with
  | nil =>
    intro st st' h hbound h1 h0 hid hplain
    have : st = st' := healLoop_nil_eq cfg st st' h
    exact this ▸ ⟨h1, h0, hid, hplain⟩
  | cons a rest ih =>
    intro st st' h hbound h1 h0 hid hplain
    simp only [healLoop] at h
    cases hstep : healStep cfg st a with
    | error e => rw [hstep] at h; exact absurd h (by simp)
    | ok st1 =>
      rw [hstep] at h
      obtain ⟨a', hdone, _, _, _, _, helig, hplainstep, _⟩ :=
        healStep_ok_spec cfg st st1 a hstep
      rw [eligCount_cons] at hbound
      rcases Bool.eq_false_or_eq_true (eligible cfg a) with he | he
      case inl =>
        simp only [he, if_true] at hbound
        have hstf : st.adminFound = false := by
          cases hsf : st.adminFound with
          | false => rfl
          | true => rw [hsf] at hbound; simp at hbound
        obtain ⟨hf1, hflag, hidok, _⟩ := helig he
        refine ih st1 st' h ?_ ?_ ?_ ?_ ?_
        · rw [hf1]
          rw [hstf] at hbound
          simp at hbound ⊢
          omega
        · intro _
          rw [hdone, adminCount_append_one, h0 hstf, hflag]
          simp
        · intro hcontra; rw [hf1] at hcontra; exact absurd hcontra (by simp)
        · intro b hb hbf
          rw [hdone] at hb
          rcases List.mem_append.mp hb with hb | hb
          · exact hid b hb hbf
          · have : b = a' := by simpa using hb
            exact this ▸ hidok
        · intro b hb hbf
          rw [hdone] at hb
          rcases List.mem_append.mp hb with hb | hb
          · exact hplain b hb hbf
          · have hba : b = a' := by simpa using hb
            rw [hba] at hbf
            rw [hflag] at hbf
            exact absurd hbf (by simp)
      case inr =>
        simp only [he] at hbound
        simp only [Bool.false_eq_true, if_false, Nat.zero_add] at hbound
        obtain ⟨hfound1, hpres⟩ := hplainstep he
        have hflag_a : isAdminFlagged a = false :=
          ((eligible_eq_false_iff cfg a).mp he).1
        have hname_a : dictGet a "username" ≠ Value.str cfg.adminUsername :=
          ((eligible_eq_false_iff cfg a).mp he).2
        have hflag' : isAdminFlagged a' = false := by
          unfold isAdminFlagged
          rw [hpres "is_admin" (by decide)]
          exact hflag_a
        refine ih st1 st' h ?_ ?_ ?_ ?_ ?_
        · rw [hfound1]; omega
        · intro hf
          rw [hdone, adminCount_append_one, hflag']
          rw [hfound1] at hf
          simpa using h1 hf
        · intro hf
          rw [hdone, adminCount_append_one, hflag']
          rw [hfound1] at hf
          simpa using h0 hf
        · intro b hb hbf
          rw [hdone] at hb
          rcases List.mem_append.mp hb with hb | hb
          · exact hid b hb hbf
          · have : b = a' := by simpa using hb
            rw [this, hflag'] at hbf
            exact absurd hbf (by simp)
        · intro b hb hbf
          rw [hdone] at hb
          rcases List.mem_append.mp hb with hb | hb
          · exact hplain b hb hbf
          · have hba : b = a' := by simpa using hb
            rw [hba]
            rw [hpres "username" (by decide)]
            exact hname_a

/-- Plain records (matching neither admin branch) are the only source of a
given non-admin username in the heal output. -/
theorem healLoop_no_user (cfg : Config) (u : String)
    (hu : u ≠ cfg.adminUsername) :
    ∀ (l : List Dict) (st st' : HealState),
      healLoop cfg st l = Except.ok st' →
      (∀ a ∈ l, isAdminFlagged a = false → dictGet a "username" ≠ Value.str u) →
      (∀ a ∈ st.done, dictGet a "username" ≠ Value.str u) →
      ∀ a ∈ st'.done, dictGet a "username" ≠ Value.str u := by
  intro l
  induction l with
  | nil =>
    intro st st' h _ hdone
    have : st = st' := healLoop_nil_eq cfg st st' h
    exact this ▸ hdone
  | cons a rest ih =>
    intro st st' h hl hdone
    simp only [healLoop] at h
    cases hstep : healStep cfg st a with
    | error e => rw [hstep] at h; exact absurd h (by simp)
    | ok st1 =>
      rw [hstep] at h
      obtain ⟨a', hdone1, _, _, _, _, helig, hplainstep, _⟩ :=
        healStep_ok_spec cfg st st1 a hstep
      refine ih st1 st' h (fun b hb => hl b (List.mem_cons_of_mem _ hb)) ?_
      intro b hb
      rw [hdone1] at hb
      rcases List.mem_append.mp hb with hb | hb
      · exact hdone b hb
      · have hba : b = a' := by simpa using hb
        subst hba
        cases he : eligible cfg a with
        | true =>
          obtain ⟨_, _, hidok, _⟩ := helig he
          rw [hidok.1]
          intro hcontra
          exact hu (Value.str.inj hcontra).symm
        | false =>
          obtain ⟨_, hpres⟩ := hplainstep he
          rw [hpres "username" (by decide)]
          exact hl a (List.mem_cons_self _ _)
            ((eligible_eq_false_iff cfg a).mp he).1

/-- A plain record with a non-admin username survives the heal loop with its
username intact. -/
theorem healLoop_user_fwd (cfg : Config) (u : String)
    (hu : u ≠ cfg.adminUsername) :
    ∀ (l : List Dict) (st st' : HealState),
      healLoop cfg st l = Except.ok st' →
      (∃ a ∈ l, dictGet a "username" = Value.str u ∧ isAdminFlagged a = false) →
      ∃ b ∈ st'.done, dictGet b "username" = Value.str u := by
  intro l
  induction l with
  | nil => intro st st' _ hex; simp at hex
  | cons a rest ih =>
    intro st st' h hex
    simp only [healLoop] at h
    cases hstep : healStep cfg st a with
    | error e => rw [hstep] at h; exact absurd h (by simp)
    | ok st1 =>
      rw [hstep] at h
      obtain ⟨a', hdone1, _, _, _, _, _, hplainstep, _⟩ :=
        healStep_ok_spec cfg st st1 a hstep
      obtain ⟨w, hw, hwu, hwf⟩ := hex
      rcases List.mem_cons.mp hw with hwa | hwrest
      · rw [hwa] at hwu hwf
        have he : eligible cfg a = false := by
          refine (eligible_eq_false_iff cfg a).mpr ⟨hwf, ?_⟩
          rw [hwu]
          intro hcontra
          exact hu (Value.str.inj hcontra)
        obtain ⟨_, hpres⟩ := hplainstep he
        obtain ⟨tail, htail⟩ := healLoop_done_prefix cfg rest st1 st' h
        refine ⟨a', ?_, ?_⟩
        · rw [htail, hdone1]; simp
        · rw [hpres "username" (by decide)]; exact hwu
      · exact ih st1 st' h ⟨w, hwrest, hwu, hwf⟩

/-- How the heal loop rewrites one record when its key is kept: the key is
unchanged, a plain record is untouched, an admin-branch record gets the
admin identity. -/
abbrev keepR (cfg : Config) (a a' : Dict) : Prop :=
  keyOf a' = keyOf a ∧ (eligible cfg a = false → a' = a) ∧
  (eligible cfg a = true → isAdminFlagged a' = true ∧ adminIdentityOk cfg a')

/-- When every incoming record already holds a distinct truthy key absent
from the accumulated set, the heal loop keeps every key, consumes no draws,
reports nothing updated, and rewrites only the admin-branch records. -/
theorem healLoop_keep (cfg : Config) :
    ∀ (l : List Dict) (st st' : HealState),
      healLoop cfg st l = Except.ok st' →
      (∀ a ∈ l, truthy (keyOf a)) →
      (l.map keyOf).Nodup →
      (∀ a ∈ l, keyOf a ∉ st.keys) →
      ∃ post, st'.done = st.done ++ post ∧
        List.Forall₂ (keepR cfg) l post ∧
        st'.updated = st.updated ∧ st'.idx = st.idx := by
  intro l
  induction l with
  | nil =>
    intro st st' h _ _ _
    have : st = st' := healLoop_nil_eq cfg st st' h
    exact ⟨[], by simp [← this], List.Forall₂.nil, by rw [← this], by rw [← this]⟩
  | cons a rest ih =>
    intro st st' h htr hnd hnotin
    simp only [healLoop] at h
    cases hstep : healStep cfg st a with
    | error e => rw [hstep] at h; exact absurd h (by simp)
    | ok st1 =>
      rw [hstep] at h
      obtain ⟨a', hdone, hkeys1, _, _, _, helig, hplainstep, hkeep⟩ :=
        healStep_ok_spec cfg st st1 a hstep
      obtain ⟨hk0, hkeys0, hupd0, hidx0, hplain0⟩ :=
        hkeep (htr a (List.mem_cons_self _ _)) (hnotin a (List.mem_cons_self _ _))
      have hnd' : (∀ x ∈ rest, ¬ keyOf x = keyOf a) ∧ (List.map keyOf rest).Nodup := by
        simpa using hnd
      have hrest : ∀ b ∈ rest, keyOf b ∉ st1.keys := by
        intro b hb
        rw [hkeys0]
        intro hmem
        rcases List.mem_cons.mp hmem with hbk | hbk
        · exact hnd'.1 b hb hbk
        · exact hnotin b (List.mem_cons_of_mem _ hb) hbk
      obtain ⟨post, hpost, hfa, hupd, hidx⟩ := ih st1 st' h
        (fun b hb => htr b (List.mem_cons_of_mem _ hb)) hnd'.2 hrest
      refine ⟨a' :: post, ?_, ?_, ?_, ?_⟩
      · rw [hpost, hdone]; simp
      · refine List.Forall₂.cons ⟨hk0, hplain0, ?_⟩ hfa
        intro he
        obtain ⟨_, hflag, hidok, _⟩ := helig he
        exact ⟨hflag, hidok⟩
      · rw [hupd, hupd0]
      · rw [hidx, hidx0]

/-- Structure of a successful `ensure_default_account` run: either the empty
path (a fresh admin record is the whole list), the loop path with an admin
found (the list is persisted only when something changed), or the loop path
with an appended admin record. -/
theorem ensure_ok_shape (cfg : Config) (idx : Nat)
    (stored s1 accounts : List Dict) (idx1 : Nat)
    (h : ensure_default_account cfg idx stored = (s1, Except.ok (accounts, idx1))) :
    (stored = [] ∧ s1 = accounts ∧ ∃ a, accounts = [a] ∧
        isAdminFlagged a = true ∧ adminIdentityOk cfg a ∧
        dictGet a "disabled" = Value.bool false ∧ truthy (keyOf a)) ∨
    (stored ≠ [] ∧ ∃ st',
      healLoop cfg { done := [], keys := [], updated := false,
                     adminFound := false, idx := idx } stored = Except.ok st' ∧
      ((st'.adminFound = true ∧ accounts = st'.done ∧ idx1 = st'.idx ∧
          (st'.updated = true → s1 = st'.done) ∧ (st'.updated = false → s1 = stored)) ∨
       (st'.adminFound = false ∧ (∃ a, accounts = st'.done ++ [a] ∧ s1 = accounts ∧
          isAdminFlagged a = true ∧ adminIdentityOk cfg a ∧
          dictGet a "disabled" = Value.bool false ∧ truthy (keyOf a) ∧
          keyOf a ∉ st'.keys)))) := by
  unfold ensure_default_account at h
  by_cases hemp : stored = []
  · rw [if_pos hemp] at h
    left
    cases heuk : _ensure_unique_api_key cfg.rand idx (newAdminDict cfg) [] with
    | error e => rw [heuk] at h; exact absurd (congrArg Prod.snd h) (by simp)
    | ok out =>
      obtain ⟨a, keys', changed, idx'⟩ := out
      rw [heuk] at h
      have hs1 : s1 = [a] := (congrArg Prod.fst h).symm
      have hacc : accounts = [a] := by
        have := congrArg Prod.snd h
        simp only at this
        exact (congrArg Prod.fst (Except.ok.inj this)).symm
      refine ⟨hemp, by rw [hs1, hacc], a, hacc, ?_, ?_, ?_,
        (euk_key_fresh cfg.rand idx (newAdminDict cfg) a [] keys' changed idx' heuk).1⟩
      · unfold isAdminFlagged
        rw [euk_preserves cfg.rand idx (newAdminDict cfg) a [] keys' changed idx' heuk
          "is_admin" (by decide)]
        simp [newAdminDict, dictGet, dictFind, truthy]
      · constructor
        · rw [euk_preserves cfg.rand idx (newAdminDict cfg) a [] keys' changed idx' heuk
            "username" (by decide)]
          simp [newAdminDict, dictGet, dictFind]
        · rw [euk_preserves cfg.rand idx (newAdminDict cfg) a [] keys' changed idx' heuk
            "password_hash" (by decide)]
          simp [newAdminDict, dictGet, dictFind]
      · rw [euk_preserves cfg.rand idx (newAdminDict cfg) a [] keys' changed idx' heuk
          "disabled" (by decide)]
        simp [newAdminDict, dictGet, dictFind]
  · rw [if_neg hemp] at h
    right
    refine ⟨hemp, ?_⟩
    cases hloop : healLoop cfg { done := [], keys := [], updated := false, adminFound := false, idx := idx } stored with
    | error e => rw [hloop] at h; exact absurd (congrArg Prod.snd h) (by simp)
    | ok st' =>
      rw [hloop] at h
      dsimp only at h
      refine ⟨st', rfl, ?_⟩
      by_cases hfound : st'.adminFound = true
      · rw [if_pos hfound] at h
        left
        have hsnd := congrArg Prod.snd h
        simp only at hsnd
        have hpair := Except.ok.inj hsnd
        refine ⟨hfound, (congrArg Prod.fst hpair).symm, (congrArg Prod.snd hpair).symm,
          ?_, ?_⟩
        · intro hu
          have := congrArg Prod.fst h
          simp only at this
          rw [hu] at this
          simpa using this.symm
        · intro hu
          have := congrArg Prod.fst h
          simp only at this
          rw [hu] at this
          simpa using this.symm
      · rw [if_neg hfound] at h
        right
        refine ⟨by simpa using hfound, ?_⟩
        cases heuk : _ensure_unique_api_key cfg.rand st'.idx (newAdminDict cfg) st'.keys with
        | error e => rw [heuk] at h; exact absurd (congrArg Prod.snd h) (by simp)
        | ok out =>
          obtain ⟨a, keys', changed, idx'⟩ := out
          rw [heuk] at h
          have hs1 : s1 = st'.done ++ [a] := (congrArg Prod.fst h).symm
          have hacc : accounts = st'.done ++ [a] := by
            have := congrArg Prod.snd h
            simp only at this
            exact (congrArg Prod.fst (Except.ok.inj this)).symm
          have hfresh := euk_key_fresh cfg.rand st'.idx (newAdminDict cfg) a
            st'.keys keys' changed idx' heuk
          refine ⟨a, hacc, by rw [hs1, hacc], ?_, ?_, ?_, hfresh.1, hfresh.2.1⟩
          · unfold isAdminFlagged
            rw [euk_preserves cfg.rand st'.idx (newAdminDict cfg) a st'.keys keys'
              changed idx' heuk "is_admin" (by decide)]
            simp [newAdminDict, dictGet, dictFind, truthy]
          · constructor
            · rw [euk_preserves cfg.rand st'.idx (newAdminDict cfg) a st'.keys keys'
                changed idx' heuk "username" (by decide)]
              simp [newAdminDict, dictGet, dictFind]
            · rw [euk_preserves cfg.rand st'.idx (newAdminDict cfg) a st'.keys keys'
                changed idx' heuk "password_hash" (by decide)]
              simp [newAdminDict, dictGet, dictFind]
          · rw [euk_preserves cfg.rand st'.idx (newAdminDict cfg) a st'.keys keys'
              changed idx' heuk "disabled" (by decide)]
            simp [newAdminDict, dictGet, dictFind]

theorem eligCount_eq_adminCount (cfg : Config) (l : List Dict)
    (h : ∀ a ∈ l, isAdminFlagged a = false →
      dictGet a "username" ≠ Value.str cfg.adminUsername) :
    eligCount cfg l = adminCount l := by
  unfold eligCount adminCount
  congr 1
  refine List.filter_congr ?_
  intro a ha
  cases hf : isAdminFlagged a with
  | true => simp [eligible, hf]
  | false =>
    simp only [eligible, hf, Bool.false_or, decide_eq_false_iff_not]
    simpa using h a ha hf

theorem eligCount_le_length (cfg : Config) (l : List Dict) :
    eligCount cfg l ≤ l.length :=
  List.length_filter_le _ _

/-- The heart of (amended) claim C1, shared with other claims: a successful
`ensure_default_account` run on a list with at most one admin-branch record
returns an admin-synced list that again satisfies the precondition, and
persists either the input or the returned list. -/
theorem ensure_admin_sync (cfg : Config) (idx : Nat)
    (stored s1 accounts : List Dict) (idx1 : Nat)
    (hpre : eligCount cfg stored ≤ 1)
    (hrun : ensure_default_account cfg idx stored = (s1, Except.ok (accounts, idx1))) :
    adminSynced cfg accounts ∧ eligCount cfg accounts ≤ 1 ∧
      (s1 = stored ∨ s1 = accounts) := by
  rcases ensure_ok_shape cfg idx stored s1 accounts idx1 hrun with
    ⟨_, hs1, a, hacc, hflag, hid, _, _⟩ | ⟨_, st', hloop, hcase⟩
  · subst hacc
    refine ⟨⟨?_, ?_⟩, eligCount_le_length cfg [a], Or.inr hs1⟩
    · simp [adminCount, List.filter_cons, hflag]
    · intro b hb _
      have : b = a := by simpa using hb
      exact this ▸ hid
  · obtain ⟨i1, i0, iid, iplain⟩ := healLoop_adminInv cfg stored
      { done := [], keys := [], updated := false, adminFound := false, idx := idx }
      st' hloop (by simpa using hpre) (fun h2 => Bool.noConfusion h2)
      (fun _ => rfl) (by intro a ha; cases ha) (by intro a ha; cases ha)
    rcases hcase with ⟨hfound, hacc, _, hupt, hupf⟩ | ⟨hfound, a, hacc, hs1, hflag, hid, _, _, _⟩
    · subst hacc
      refine ⟨⟨i1 hfound, fun a ha haf => iid a ha haf⟩, ?_, ?_⟩
      · rw [eligCount_eq_adminCount cfg st'.done iplain, i1 hfound]
      · cases hu : st'.updated with
        | true => exact Or.inr (hupt hu)
        | false => exact Or.inl (hupf hu)
    · subst hacc
      have hz := i0 hfound
      have hall := (adminCount_eq_zero st'.done).mp hz
      refine ⟨⟨?_, ?_⟩, ?_, Or.inr hs1⟩
      · rw [adminCount_append_one, hz, hflag]
        simp
      · intro b hb hbf
        rcases List.mem_append.mp hb with hb | hb
        · exact absurd hbf (by simp [hall b hb])
        · have : b = a := by simpa using hb
          exact this ▸ hid
      · rw [eligCount_eq_adminCount, adminCount_append_one, hz, hflag]
        · simp
        · intro b hb hbf
          rcases List.mem_append.mp hb with hb | hb
          · exact iplain b hb hbf
          · have hba : b = a := by simpa using hb
            rw [hba, hflag] at hbf
            exact absurd hbf (by simp)

/-! ### Concrete inputs shared by counterexamples and witnesses -/

/-- A concrete configuration: admin identity `("admin", "pw")`, an injective
stand-in for the SHA-256 hex digest, and a constant random stream (every
candidate draw is the 32-character string of `A`s). -/
def cfgA : Config :=
  { adminUsername := "admin", adminPassword := "pw",
    hash := fun s => s ++ "#", rand := fun _ => 0, now := 7 }

/-- A stored admin-flagged record whose identity fields are stale. -/
def staleAdmin : Dict :=
  [("username", Value.str "old"), ("password_hash", Value.str "x"),
   ("is_admin", Value.bool true), ("api_key", Value.str "K1")]

/-- A stored plain record named `bob` holding the non-empty key `KB`. -/
def bobRec : Dict :=
  [("username", Value.str "bob"), ("password_hash", Value.str "hb"),
   ("api_key", Value.str "KB")]

/-- A stored non-admin record that carries the admin username. -/
def namedPlain : Dict :=
  [("username", Value.str "admin"), ("password_hash", Value.str "y"),
   ("api_key", Value.str "K2")]

/-- The in-memory list a successful `ensure_default_account` call returns
(`[]` on an exception), used to state concrete counterexamples. -/
def returnedOf (r : List Dict × Res (List Dict × Nat)) : List Dict :=
  match r.2 with
  | Except.ok (l, _) => l
  | Except.error _ => []

/-- C1, counterexample: the claim fails on the code in two independent ways.
With a stored list holding one admin-flagged record with stale identity
fields (`staleAdmin`), `ensure_default_account` repairs the record only in
memory — nothing forced a save, so the persisted list still carries the old
username and is not admin-synced.  And with a second record that merely
carries the admin username (`namedPlain`), the returned list ends up with
two admin-flagged records. -/
theorem c1_counterexample :
    ¬ adminSynced cfgA (ensure_default_account cfgA 0 [staleAdmin]).1 ∧
    adminCount (returnedOf (ensure_default_account cfgA 0 [staleAdmin, namedPlain])) = 2 := by
  constructor
  · decide
  · decide

/-- C1 (amended): for every stored account list in which at most one record
is admin-flagged or carries the configured admin username, after
`ensure_default_account()` completes, exactly one record of the returned
in-memory list has `is_admin = true` and its username and password hash
equal the configured identity; the output again satisfies the precondition
(so the property holds after each call of any sequence), and the persisted
list is either the returned list (when a save happened) or the unchanged
input. -/
theorem c1_admin_sync_amended (cfg : Config) (idx : Nat)
    (stored s1 accounts : List Dict) (idx1 : Nat)
    (hpre : eligCount cfg stored ≤ 1)
    (hrun : ensure_default_account cfg idx stored = (s1, Except.ok (accounts, idx1))) :
    adminSynced cfg accounts ∧ eligCount cfg accounts ≤ 1 ∧
      (s1 = stored ∨ s1 = accounts) :=
  ensure_admin_sync cfg idx stored s1 accounts idx1 hpre hrun

/-- C1, witness: the amended claim evaluated on the concrete stale-admin
store. -/
theorem c1_witness :
    adminSynced cfgA
        (returnedOf (ensure_default_account cfgA 0 [staleAdmin])) ∧
      eligCount cfgA (returnedOf (ensure_default_account cfgA 0 [staleAdmin])) ≤ 1 := by
  have h := c1_admin_sync_amended cfgA 0 [staleAdmin]
    (ensure_default_account cfgA 0 [staleAdmin]).1
    (returnedOf (ensure_default_account cfgA 0 [staleAdmin])) 0
    (by decide) (by decide)
  exact ⟨h.1, h.2.1⟩

/-! ### `_find_account` and `stampFirst` structure -/

theorem find_account_none_iff (u : String) :
    ∀ l : List Dict, _find_account u l = Option.none ↔
      ∀ a ∈ l, dictGet a "username" ≠ Value.str u := by
  intro l
  induction l with
  | nil => simp [_find_account]
  | cons a rest ih =>
    by_cases h : dictGet a "username" = Value.str u
    · simp [_find_account, h]
    · simp [_find_account, h, ih]

theorem find_account_some_decomp (u : String) :
    ∀ (l : List Dict) (a : Dict), _find_account u l = some a →
      ∃ pre post, l = pre ++ a :: post ∧
        (∀ b ∈ pre, dictGet b "username" ≠ Value.str u) ∧
        dictGet a "username" = Value.str u := by
  intro l
  induction l with
  | nil => intro a h; simp [_find_account] at h
  | cons b rest ih =>
    intro a h
    by_cases hb : dictGet b "username" = Value.str u
    · rw [_find_account, if_pos hb] at h
      have : b = a := Option.some.inj h
      subst this
      exact ⟨[], rest, by simp, by simp, hb⟩
    · rw [_find_account, if_neg hb] at h
      obtain ⟨pre, post, hl, hpre, ha⟩ := ih a h
      exact ⟨b :: pre, post, by rw [hl]; simp, by
        intro c hc
        rcases List.mem_cons.mp hc with hc | hc
        · exact hc ▸ hb
        · exact hpre c hc, ha⟩

theorem find_account_append_left (u : String) (l1 l2 : List Dict)
    (h : ∀ a ∈ l1, dictGet a "username" ≠ Value.str u) :
    _find_account u (l1 ++ l2) = _find_account u l2 := by
  induction l1 with
  | nil => simp
  | cons a rest ih =>
    simp only [List.cons_append, _find_account]
    rw [if_neg (h a (List.mem_cons_self _ _))]
    exact ih (fun b hb => h b (List.mem_cons_of_mem _ hb))

theorem stampFirst_no_match (u f : String) (v : Value) :
    ∀ l : List Dict, (∀ a ∈ l, dictGet a "username" ≠ Value.str u) →
      stampFirst u f v l = l := by
  intro l
  induction l with
  | nil => intro _; rfl
  | cons a rest ih =>
    intro h
    rw [stampFirst, if_neg (h a (List.mem_cons_self _ _))]
    rw [ih (fun b hb => h b (List.mem_cons_of_mem _ hb))]

theorem stampFirst_match (u f : String) (v : Value) :
    ∀ (pre post : List Dict) (a : Dict),
      (∀ b ∈ pre, dictGet b "username" ≠ Value.str u) →
      dictGet a "username" = Value.str u →
      stampFirst u f v (pre ++ a :: post) = pre ++ dictSet a f v :: post := by
  intro pre
  induction pre with
  | nil =>
    intro post a _ ha
    simp only [List.nil_append, stampFirst, if_pos ha]
  | cons b rest ih =>
    intro post a hpre ha
    simp only [List.cons_append, stampFirst]
    rw [if_neg (hpre b (List.mem_cons_self _ _))]
    exact congrArg (fun t => b :: t)
      (ih post a (fun c hc => hpre c (List.mem_cons_of_mem _ hc)) ha)

theorem stampFirst_map_keyOf (u f : String) (v : Value) (hf : f ≠ "api_key") :
    ∀ l : List Dict, (stampFirst u f v l).map keyOf = l.map keyOf := by
  intro l
  induction l with
  | nil => rfl
  | cons a rest ih =>
    by_cases h : dictGet a "username" = Value.str u
    · rw [stampFirst, if_pos h]
      simp only [List.map_cons]
      rw [show keyOf (dictSet a f v) = keyOf a from
        dictGet_dictSet_ne a f "api_key" v hf]
    · rw [stampFirst, if_neg h]
      simp only [List.map_cons, ih]

/-! ### Claim C5: sanitized listing -/

/-- C5: every record returned by `list_accounts(false)` carries exactly the
keys `username`, `is_admin`, `disabled`, `last_login`, `last_call` — never
`password_hash` or `api_key` — for any stored account shape, and
`list_accounts(true)` is the raw `ensure_default_account` result (full
records, secrets included). -/
theorem c5_sanitized_listing (cfg : Config) (idx : Nat) (stored : List Dict) :
    (∀ s1 recs idx1,
      list_accounts cfg idx stored false = (s1, Except.ok (recs, idx1)) →
      ∀ r ∈ recs,
        dictKeys r = ["username", "is_admin", "disabled", "last_login", "last_call"] ∧
        "password_hash" ∉ dictKeys r ∧ "api_key" ∉ dictKeys r) ∧
    list_accounts cfg idx stored true = ensure_default_account cfg idx stored := by
  constructor
  · intro s1 recs idx1 hrun r hr
    unfold list_accounts at hrun
    cases hens : ensure_default_account cfg idx stored with
    | mk s r0 =>
      rw [hens] at hrun
      cases r0 with
      | error e => exact absurd (congrArg Prod.snd hrun) (by simp)
      | ok p =>
        obtain ⟨accounts, idxa⟩ := p
        dsimp only at hrun
        have hrecs : recs = accounts.map sanitizeAccount := by
          have := congrArg Prod.snd hrun
          simp only at this
          exact (congrArg Prod.fst (Except.ok.inj this)).symm
        rw [hrecs] at hr
        obtain ⟨a, _, rfl⟩ := List.mem_map.mp hr
        exact ⟨rfl, by simp [sanitizeAccount, dictKeys], by simp [sanitizeAccount, dictKeys]⟩
  · unfold list_accounts
    cases hens : ensure_default_account cfg idx stored with
    | mk s r0 =>
      cases r0 with
      | error e => rfl
      | ok p => obtain ⟨accounts, idxa⟩ := p; rfl

/-- C5, witness: the sanitized listing on a concrete store. -/
theorem c5_witness :
    ∀ r ∈ returnedOf (list_accounts cfgA 0 [staleAdmin] false),
      dictKeys r = ["username", "is_admin", "disabled", "last_login", "last_call"] ∧
      "password_hash" ∉ dictKeys r ∧ "api_key" ∉ dictKeys r :=
  (c5_sanitized_listing cfgA 0 [staleAdmin]).1
    (list_accounts cfgA 0 [staleAdmin] false).1
    (returnedOf (list_accounts cfgA 0 [staleAdmin] false)) 0 (by decide)

/-! ### Claim C6: last-account guard -/

/-- C6, counterexample: on the stored single-account list `[bobRec]`,
removing `"bob"` would leave the stored list empty, yet `remove_account`
succeeds (the internal self-heal appended the admin record first) and the
persisted list differs from the stored one — the claim's "raises and
performs no write" is false. -/
theorem c6_counterexample :
    (remove_account cfgA 0 [bobRec] "bob").2 = Except.ok 1 ∧
    (remove_account cfgA 0 [bobRec] "bob").1 ≠ [bobRec] := by
  exact ⟨by decide, by decide⟩

/-- C6 (amended): the emptiness test runs on the self-healed list.  After
the internal `ensure_default_account` (which may itself write), if filtering
the healed list by the username would leave it empty, `remove_account`
raises the last-account error and performs no further write (the persisted
list is exactly what the self-heal left); otherwise it persists the filtered
healed list, a sublist of the healed list free of the removed username. -/
theorem c6_remove_guard_amended (cfg : Config) (idx : Nat)
    (stored s1 accounts : List Dict) (idx1 : Nat) (u : String)
    (hens : ensure_default_account cfg idx stored = (s1, Except.ok (accounts, idx1))) :
    (accounts.filter (fun a => !(dictGet a "username" = Value.str u)) = [] →
      remove_account cfg idx stored u = (s1, Except.error PyError.lastAccount)) ∧
    (accounts.filter (fun a => !(dictGet a "username" = Value.str u)) ≠ [] →
      remove_account cfg idx stored u =
        (accounts.filter (fun a => !(dictGet a "username" = Value.str u)), Except.ok idx1) ∧
      (accounts.filter (fun a => !(dictGet a "username" = Value.str u))).Sublist accounts ∧
      ∀ a ∈ accounts.filter (fun a => !(dictGet a "username" = Value.str u)),
        dictGet a "username" ≠ Value.str u) := by
  constructor
  · intro hempty
    unfold remove_account
    rw [hens]
    dsimp only
    rw [if_pos hempty]
  · intro hne
    refine ⟨?_, List.filter_sublist _, ?_⟩
    · unfold remove_account
      rw [hens]
      dsimp only
      rw [if_neg hne]
    · intro a ha
      have := (List.mem_filter.mp ha).2
      simpa using this

/-- C6, witness: on the healed single-admin store, removing the admin
username fails with the last-account error and the store is left as the
self-heal left it. -/
theorem c6_witness :
    remove_account cfgA 0 [staleAdmin] "admin" =
      ([staleAdmin], Except.error PyError.lastAccount) :=
  (c6_remove_guard_amended cfgA 0 [staleAdmin] [staleAdmin]
    (returnedOf (ensure_default_account cfgA 0 [staleAdmin])) 0 "admin"
    (by decide)).1 (by decide)

/-! ### Claim C9: last-login / last-call updates -/

/-- C9, counterexample: `update_last_login("bob")` on the stored list
`[bobRec]` persists a two-record list (the self-heal appended the admin
record), so fields and records other than the matched record's timestamp do
change, against the claim's frame condition. -/
theorem c9_counterexample :
    (update_last_login cfgA 0 [bobRec] "bob").1.length = 2 ∧
    ([bobRec] : List Dict).length = 1 := by
  exact ⟨by decide, by decide⟩

/-- C9 (amended): an empty username is a complete no-op for both stamping
operations.  A non-empty username first runs the self-heal (which may itself
modify and persist the list); relative to the healed list, the operation
stamps the current time on the `last_login` / `last_call` field of the first
matching record only — every other record, and every other field of the
matched record, is unchanged — and persists the result; with no match the
healed list is persisted unchanged. -/
theorem c9_update_last_amended (cfg : Config) (idx : Nat) (stored : List Dict)
    (u : String) :
    (update_last_login cfg idx stored "" = (stored, Except.ok idx) ∧
     update_last_call cfg idx stored "" = (stored, Except.ok idx)) ∧
    (∀ s1 accounts idx1, u ≠ "" →
      ensure_default_account cfg idx stored = (s1, Except.ok (accounts, idx1)) →
      update_last_login cfg idx stored u =
        (stampFirst u "last_login" (Value.nat cfg.now) accounts, Except.ok idx1) ∧
      update_last_call cfg idx stored u =
        (stampFirst u "last_call" (Value.nat cfg.now) accounts, Except.ok idx1)) ∧
    (∀ f v (l : List Dict), (∀ a ∈ l, dictGet a "username" ≠ Value.str u) →
      stampFirst u f v l = l) ∧
    (∀ f v (l : List Dict) a, _find_account u l = some a →
      ∃ pre post, l = pre ++ a :: post ∧
        (∀ b ∈ pre, dictGet b "username" ≠ Value.str u) ∧
        stampFirst u f v l = pre ++ dictSet a f v :: post ∧
        ∀ k, k ≠ f → dictGet (dictSet a f v) k = dictGet a k) := by
  refine ⟨⟨rfl, rfl⟩, ?_, ?_, ?_⟩
  · intro s1 accounts idx1 hu hens
    constructor
    · unfold update_last_login
      rw [if_neg hu, hens]
    · unfold update_last_call
      rw [if_neg hu, hens]
  · intro f v l h
    exact stampFirst_no_match u f v l h
  · intro f v l a hfind
    obtain ⟨pre, post, hl, hpre, ha⟩ := find_account_some_decomp u l a hfind
    refine ⟨pre, post, hl, hpre, ?_, ?_⟩
    · rw [hl]
      exact stampFirst_match u f v pre post a hpre ha
    · intro k hk
      exact dictGet_dictSet_ne a f k v (fun h' => hk h'.symm)

/-- C9, witness: the amended statement evaluated on a concrete healed
two-record store. -/
theorem c9_witness :
    update_last_login cfgA 0 [staleAdmin, bobRec] "bob" =
      (stampFirst "bob" "last_login" (Value.nat 7)
        (returnedOf (ensure_default_account cfgA 0 [staleAdmin, bobRec])),
       Except.ok 0) :=
  ((c9_update_last_amended cfgA 0 [staleAdmin, bobRec] "bob").2.1
    (ensure_default_account cfgA 0 [staleAdmin, bobRec]).1
    (returnedOf (ensure_default_account cfgA 0 [staleAdmin, bobRec])) 0
    (by decide) (by decide)).1

/-! ### Claim C3: backend fallthrough on init failure -/

/-- An environment where Redis is configured, its manager imports and
constructs fine, but its own init method raises; Postgres, MongoDB and File
are all configured and healthy. -/
def envRedisInitFails : AdapterEnv :=
  { redis_uri := true, postgres_dsn := true, mongodb_uri := true,
    redisAttempt := AttemptOutcome.initRaises, postgresAttempt := AttemptOutcome.ok,
    mongoAttempt := AttemptOutcome.ok, fileOk := true }

/-- C3 is a code bug: whenever a configured variant's own init method raises
after construction, `self._backend` has already been assigned, so every later
`if not self._backend` guard is skipped: the adapter completes bound to the
broken variant instead of falling through — even though the handler logs
"Falling back to next available storage backend".  The first conjunct is
the general fact for Redis; the second evaluates the concrete failing
environment. -/
theorem c3_init_failure_no_fallthrough :
    (∀ env : AdapterEnv, env.redis_uri = true →
      env.redisAttempt = AttemptOutcome.initRaises →
      adapterInit env = Except.ok
        { backend := some { variant := Variant.redis, initOk := false },
          initDone := true }) ∧
    adapterInit envRedisInitFails = Except.ok
      { backend := some { variant := Variant.redis, initOk := false },
        initDone := true } := by
  constructor
  · intro env hr ha
    unfold adapterInit
    rw [hr, ha]
    rfl
  · decide

/-- C3, witness: the general conjunct applied to the concrete environment. -/
theorem c3_witness :
    adapterInit envRedisInitFails = Except.ok
      { backend := some { variant := Variant.redis, initOk := false },
        initDone := true } :=
  c3_init_failure_no_fallthrough.1 envRedisInitFails rfl rfl

/-! ### Claim C10: registry namespace asymmetry -/

theorem regFind_append_right (l : List (String × Nat)) (k : String) (v : Nat)
    (h : regFind l k = Option.none) : regFind (l ++ [(k, v)]) k = some v := by
  induction l with
  | nil => simp [regFind]
  | cons kv rest ih =>
    obtain ⟨k', v'⟩ := kv
    by_cases hk : k' = k
    · rw [regFind, if_pos hk] at h
      exact absurd h (by simp)
    · rw [regFind, if_neg hk] at h
      simpa [regFind, hk] using ih h

theorem regFind_filter_ne (l : List (String × Nat)) (k bad : String)
    (h : k ≠ bad) :
    regFind (l.filter (fun kv => !(kv.1 = bad))) k = regFind l k := by
  induction l with
  | nil => rfl
  | cons kv rest ih =>
    obtain ⟨k', v'⟩ := kv
    by_cases hb : k' = bad
    · subst hb
      rw [List.filter_cons_of_neg (by simp)]
      rw [regFind, if_neg (fun hc => h hc.symm)]
      exact ih
    · rw [List.filter_cons_of_pos (by simpa using hb)]
      by_cases hk : k' = k
      · rw [regFind, if_pos hk, regFind, if_pos hk]
      · rw [regFind, if_neg hk, regFind, if_neg hk]
        exact ih

/-- C10: with the ambient namespace set to `"tenant"`,
`get_storage_adapter(None)` resolves and returns the adapter registered
under `"tenant"`, while `close_storage_adapter(None)` ignores the ambient
value and evicts exactly the `"__default__"` entries — so the adapter the
getter returns survives the close untouched: the one closed is never the
one returned. -/
theorem c10_namespace_asymmetry (reg reg' : Registry) (id : Nat)
    (hamb : reg.ambient = some "tenant")
    (hget : get_storage_adapter reg Option.none = (id, reg')) :
    regFind reg'.adapters "tenant" = some id ∧
    (close_storage_adapter reg' Option.none).adapters =
      reg'.adapters.filter (fun kv => !(kv.1 = "__default__")) ∧
    regFind (close_storage_adapter reg' Option.none).adapters "tenant" = some id := by
  have hfind : regFind reg'.adapters "tenant" = some id := by
    unfold get_storage_adapter at hget
    dsimp only at hget
    rw [hamb] at hget
    rw [show _get_namespace_key (some "tenant") = "tenant" from rfl] at hget
    cases hlook : regFind reg.adapters "tenant" with
    | some i =>
      rw [hlook] at hget
      dsimp only at hget
      have hid : i = id := congrArg Prod.fst hget
      have hreg : reg = reg' := congrArg Prod.snd hget
      rw [← hreg, ← hid]
      exact hlook
    | none =>
      rw [hlook] at hget
      dsimp only at hget
      have hid : reg.nextId = id := congrArg Prod.fst hget
      have hreg : ({ adapters := reg.adapters ++ [("tenant", reg.nextId)], nextId := reg.nextId + 1, ambient := some "tenant" } : Registry) = reg' :=
        congrArg Prod.snd hget
      rw [← hreg, ← hid]
      exact regFind_append_right reg.adapters "tenant" reg.nextId hlook
  refine ⟨hfind, rfl, ?_⟩
  show regFind (reg'.adapters.filter (fun kv => !(kv.1 = "__default__"))) "tenant" = some id
  rw [regFind_filter_ne reg'.adapters "tenant" "__default__" (by decide)]
  exact hfind

/-- C10, witness: the asymmetry on a concrete registry holding both the
default-namespace adapter 0 and the tenant adapter 1. -/
theorem c10_witness :
    regFind ((close_storage_adapter
      (get_storage_adapter
        { adapters := [("__default__", 0), ("tenant", 1)], nextId := 2,
          ambient := some "tenant" } Option.none).2
      Option.none).adapters) "tenant" = some 1 :=
  (c10_namespace_asymmetry
    { adapters := [("__default__", 0), ("tenant", 1)], nextId := 2,
      ambient := some "tenant" }
    (get_storage_adapter
      { adapters := [("__default__", 0), ("tenant", 1)], nextId := 2,
        ambient := some "tenant" } Option.none).2 1 rfl rfl).2.2

/-! ### Claim C8: API-key issuance -/

theorem drawLoop_first (rand : Nat → Nat) (keys : List Value) :
    ∀ (fuel d j : Nat), j < fuel →
      (∀ i < j, Value.str (mkCandidate rand (d + i)) ∈ keys) →
      Value.str (mkCandidate rand (d + j)) ∉ keys →
      drawLoop rand keys fuel d = some (mkCandidate rand (d + j), d + j + 1) := by
  intro fuel
  induction fuel with
  | zero => intro d j hj; omega
  | succ n ih =>
    intro d j hj hall hnot
    match j with
    | 0 =>
      have h0 : Value.str (mkCandidate rand d) ∉ keys := by simpa using hnot
      simp only [drawLoop, if_neg h0]
      simp
    | k + 1 =>
      have hmem : Value.str (mkCandidate rand d) ∈ keys := by
        simpa using hall 0 (by omega)
      simp only [drawLoop, if_pos hmem]
      have := ih (d + 1) k (by omega)
        (fun i hi => by
          have := hall (i + 1) (by omega)
          simpa [Nat.add_comm, Nat.add_left_comm] using this)
        (by simpa [Nat.add_comm, Nat.add_left_comm] using hnot)
      rw [this, show d + 1 + k = d + (k + 1) from by omega]

/-- C8: the full behaviour of `_ensure_unique_api_key`.  (1) A held truthy
key absent from the seen-set is kept, registered, and reported unchanged,
with no draw consumed.  (2) Every candidate draw has fixed length 32 over
the alphabet of ASCII letters, digits and hyphen.  (3) Otherwise the first
of the (at most 20) draws absent from the seen-set is assigned, registered
and reported changed.  (4) The fatal internal error is raised exactly when
the key cannot be kept and all 20 draws are already in the seen-set. -/
theorem c8_key_issuance (rand : Nat → Nat) (d : Nat) (account : Dict)
    (keys : List Value) :
    (truthy (dictGet account "api_key") → dictGet account "api_key" ∉ keys →
      _ensure_unique_api_key rand d account keys =
        Except.ok (account, dictGet account "api_key" :: keys, false, d)) ∧
    (∀ m, (mkCandidate rand m).length = API_KEY_LENGTH ∧
      ∀ c ∈ (mkCandidate rand m).data, c ∈ API_KEY_CHARS.data) ∧
    (¬(truthy (dictGet account "api_key") ∧ dictGet account "api_key" ∉ keys) →
      ∀ j, j < 20 → Value.str (mkCandidate rand (d + j)) ∉ keys →
      (∀ i < j, Value.str (mkCandidate rand (d + i)) ∈ keys) →
      _ensure_unique_api_key rand d account keys =
        Except.ok (dictSet account "api_key" (Value.str (mkCandidate rand (d + j))),
          Value.str (mkCandidate rand (d + j)) :: keys, true, d + j + 1)) ∧
    (_ensure_unique_api_key rand d account keys = Except.error PyError.keyExhausted ↔
      (¬(truthy (dictGet account "api_key") ∧ dictGet account "api_key" ∉ keys) ∧
       ∀ j < 20, Value.str (mkCandidate rand (d + j)) ∈ keys)) := by
  refine ⟨?_, ?_, ?_, ?_⟩
  · intro htr hnot
    unfold _ensure_unique_api_key
    rw [if_pos ⟨htr, hnot⟩]
  · intro m
    exact ⟨mkCandidate_length rand m, mkCandidate_mem_alphabet rand m⟩
  · intro hkeep j hj hnot hall
    unfold _ensure_unique_api_key
    rw [if_neg hkeep]
    rw [drawLoop_first rand keys 20 d j hj hall hnot]
  · constructor
    · intro herr
      unfold _ensure_unique_api_key at herr
      by_cases hkeep : truthy (dictGet account "api_key") ∧ dictGet account "api_key" ∉ keys
      · rw [if_pos hkeep] at herr
        exact absurd herr (by simp)
      · refine ⟨hkeep, ?_⟩
        rw [if_neg hkeep] at herr
        cases hdraw : drawLoop rand keys 20 d with
        | some cd => rw [hdraw] at herr; exact absurd herr (by simp)
        | none => exact (drawLoop_none_iff rand keys 20 d).mp hdraw
    · intro ⟨hkeep, hall⟩
      unfold _ensure_unique_api_key
      rw [if_neg hkeep]
      rw [(drawLoop_none_iff rand keys 20 d).mpr hall]

/-- C8, witness: key kept on a concrete record, and the error raised when
the lone candidate is always seen. -/
theorem c8_witness :
    _ensure_unique_api_key (fun _ => 0) 0 bobRec [] =
      Except.ok (bobRec, [Value.str "KB"], false, 0) ∧
    _ensure_unique_api_key (fun _ => 0) 0 bobRec
        [Value.str "KB", Value.str "AAAAAAAAAAAAAAAAAAAAAAAAAAAAAAAA"] =
      Except.error PyError.keyExhausted := by
  constructor
  · exact (c8_key_issuance (fun _ => 0) 0 bobRec []).1 (by decide) (by decide)
  · exact (c8_key_issuance (fun _ => 0) 0 bobRec
      [Value.str "KB", Value.str "AAAAAAAAAAAAAAAAAAAAAAAAAAAAAAAA"]).2.2.2.mpr
      ⟨by decide, by decide⟩

/-! ### Key-uniqueness infrastructure -/

/-- The property of claim C7: no two distinct records share the same
non-empty (truthy) `api_key` value. -/
def distinctKeys (l : List Dict) : Prop :=
  (l.map keyOf).Pairwise (fun v w => truthy v → truthy w → v ≠ w)

theorem distinctKeys_of_nodup (l : List Dict) (h : (l.map keyOf).Nodup) :
    distinctKeys l :=
  h.imp (fun hne _ _ => hne)

theorem keyOf_mem_apiKeySet (l : List Dict) (a : Dict)
    (ha : a ∈ l) (htr : truthy (keyOf a)) : keyOf a ∈ apiKeySet l := by
  unfold apiKeySet
  refine List.mem_filterMap.mpr ⟨a, ha, ?_⟩
  unfold keyOf at htr
  rw [if_pos htr]
  rfl

/-- Number of records carrying a given username. -/
def countUser (u : String) (l : List Dict) : Nat :=
  (l.filter (fun a => decide (dictGet a "username" = Value.str u))).length

theorem countUser_cons (u : String) (a : Dict) (l : List Dict) :
    countUser u (a :: l) =
      (if dictGet a "username" = Value.str u then 1 else 0) + countUser u l := by
  by_cases h : dictGet a "username" = Value.str u <;>
    simp [countUser, List.filter_cons, h, Nat.add_comm]

theorem countUser_append (u : String) (l1 l2 : List Dict) :
    countUser u (l1 ++ l2) = countUser u l1 + countUser u l2 := by
  simp [countUser, List.filter_append]

/-- Successful `ensure_default_account` output lists: every record holds a
truthy key and the keys are pairwise distinct, both for the returned and
for the persisted list. -/
theorem ensure_ok_keys (cfg : Config) (idx : Nat)
    (stored s1 accounts : List Dict) (idx1 : Nat)
    (h : ensure_default_account cfg idx stored = (s1, Except.ok (accounts, idx1))) :
    (∀ b ∈ accounts, truthy (keyOf b)) ∧ (accounts.map keyOf).Nodup ∧
    (∀ b ∈ s1, truthy (keyOf b)) ∧ (s1.map keyOf).Nodup := by
  rcases ensure_ok_shape cfg idx stored s1 accounts idx1 h with
    ⟨_, hs1, a, hacc, _, _, _, htr⟩ | ⟨_, st', hloop, hcase⟩
  · subst hacc
    subst hs1
    refine ⟨?_, by simp, ?_, by simp⟩ <;>
      · intro b hb
        have : b = a := by simpa using hb
        exact this ▸ htr
  · have hkeyinv := healLoop_keyInv cfg stored
      { done := [], keys := [], updated := false, adminFound := false, idx := idx }
      st' hloop (by intro b hb; cases hb) (by simp)
    rcases hcase with ⟨_, hacc, _, hupt, hupf⟩ | ⟨_, a, hacc, hs1, _, _, _, htr, hfresh⟩
    · subst hacc
      refine ⟨fun b hb => (hkeyinv.1 b hb).1, hkeyinv.2, ?_, ?_⟩
      · cases hu : st'.updated with
        | true =>
          rw [hupt hu]
          exact fun b hb => (hkeyinv.1 b hb).1
        | false =>
          rw [hupf hu]
          obtain ⟨_, _, hmap⟩ := healLoop_unchanged cfg stored _ st' hloop hu
          simp only [HealState.done, List.map_nil, List.nil_append] at hmap
          intro b hb
          have : keyOf b ∈ List.map keyOf st'.done := by
            rw [hmap]
            exact List.mem_map_of_mem keyOf hb
          obtain ⟨c, hc, hcb⟩ := List.mem_map.mp this
          rw [← hcb]
          exact (hkeyinv.1 c hc).1
      · cases hu : st'.updated with
        | true => rw [hupt hu]; exact hkeyinv.2
        | false =>
          rw [hupf hu]
          obtain ⟨_, _, hmap⟩ := healLoop_unchanged cfg stored _ st' hloop hu
          simp only [HealState.done, List.map_nil, List.nil_append] at hmap
          rw [← hmap]
          exact hkeyinv.2
    · have hnodup : ((st'.done ++ [a]).map keyOf).Nodup := by
        simp only [List.map_append, List.map_cons, List.map_nil]
        rw [List.nodup_append]
        refine ⟨hkeyinv.2, List.nodup_singleton _, ?_⟩
        intro v hv hw
        simp only [List.mem_singleton] at hw
        subst hw
        obtain ⟨b, hb, hbv⟩ := List.mem_map.mp hv
        exact hfresh (hbv ▸ (hkeyinv.1 b hb).2)
      have htrall : ∀ b ∈ st'.done ++ [a], truthy (keyOf b) := by
        intro b hb
        rcases List.mem_append.mp hb with hb | hb
        · exact (hkeyinv.1 b hb).1
        · have : b = a := by simpa using hb
          exact this ▸ htr
      subst hacc
      exact ⟨htrall, hnodup, hs1 ▸ htrall, hs1 ▸ hnodup⟩

/-- `upsertMatch` returns `none` exactly when no record carries the
username. -/
theorem upsertMatch_ok_none_iff (cfg : Config) (idx : Nat) (u ph : String)
    (ad dis : Bool) (keys : List Value) :
    ∀ l : List Dict,
      upsertMatch cfg idx u ph ad dis keys l = Except.ok Option.none ↔
      ∀ a ∈ l, dictGet a "username" ≠ Value.str u := by
  intro l
  induction l with
  | nil => simp [upsertMatch]
  | cons a rest ih =>
    by_cases h : dictGet a "username" = Value.str u
    · rw [upsertMatch, if_pos h]
      constructor
      · intro hcontra
        cases heuk : _ensure_unique_api_key cfg.rand idx
          (dictUpdate a [("password_hash", Value.str ph), ("is_admin", Value.bool ad),
            ("disabled", Value.bool dis)]) keys with
        | ok out =>
          obtain ⟨a', k', c', i'⟩ := out
          rw [heuk] at hcontra
          exact absurd hcontra (by simp)
        | error e =>
          rw [heuk] at hcontra
          exact absurd hcontra (by simp)
      · intro hall
        exact absurd h (hall a (List.mem_cons_self _ _))
    · rw [upsertMatch, if_neg h]
      constructor
      · intro hrun b hb
        rcases List.mem_cons.mp hb with hb | hb
        · exact hb ▸ h
        · refine (ih.mp ?_) b hb
          cases hrec : upsertMatch cfg idx u ph ad dis keys rest with
          | error e => rw [hrec] at hrun; exact absurd hrun (by simp)
          | ok o =>
            cases o with
            | none => rfl
            | some p =>
              obtain ⟨rest', idx'⟩ := p
              rw [hrec] at hrun
              exact absurd hrun (by simp)
      · intro hall
        rw [ih.mpr (fun b hb => hall b (List.mem_cons_of_mem _ hb))]

/-- Decomposition of a successful matching `upsertMatch` run. -/
theorem upsertMatch_ok_some (cfg : Config) (idx : Nat) (u ph : String)
    (ad dis : Bool) (keys : List Value) :
    ∀ (l l' : List Dict) (idx2 : Nat),
      upsertMatch cfg idx u ph ad dis keys l = Except.ok (some (l', idx2)) →
      ∃ pre a post a', l = pre ++ a :: post ∧ l' = pre ++ a' :: post ∧
        (∀ b ∈ pre, dictGet b "username" ≠ Value.str u) ∧
        dictGet a "username" = Value.str u ∧
        dictGet a' "username" = dictGet a "username" ∧
        dictGet a' "password_hash" = Value.str ph ∧
        dictGet a' "is_admin" = Value.bool ad ∧
        dictGet a' "disabled" = Value.bool dis ∧
        dictGet a' "created_at" = dictGet a "created_at" ∧
        truthy (keyOf a') ∧ keyOf a' ∉ keys := by
  intro l
  induction l with
  | nil => intro l' idx2 h; simp [upsertMatch] at h
  | cons a rest ih =>
    intro l' idx2 h
    by_cases hu : dictGet a "username" = Value.str u
    · rw [upsertMatch, if_pos hu] at h
      cases heuk : _ensure_unique_api_key cfg.rand idx
        (dictUpdate a [("password_hash", Value.str ph), ("is_admin", Value.bool ad),
          ("disabled", Value.bool dis)]) keys with
      | error e => rw [heuk] at h; exact absurd h (by simp)
      | ok out =>
        obtain ⟨a', k', c', i'⟩ := out
        rw [heuk] at h
        have hp := Except.ok.inj h
        have hl' : l' = a' :: rest := (congrArg (fun o => o.getD ([], 0) |>.1) hp).symm
        have hfresh := euk_key_fresh cfg.rand idx _ a' keys k' c' i' heuk
        refine ⟨[], a, rest, a', by simp, by simp [hl'], by simp, hu, ?_, ?_, ?_, ?_, ?_,
          hfresh.1, hfresh.2.1⟩
        · rw [euk_preserves cfg.rand idx _ a' keys k' c' i' heuk "username" (by decide)]
          simp [dictUpdate, dictGet_dictSet_ne]
        · rw [euk_preserves cfg.rand idx _ a' keys k' c' i' heuk "password_hash" (by decide)]
          simp [dictUpdate, dictGet_dictSet_self, dictGet_dictSet_ne]
        · rw [euk_preserves cfg.rand idx _ a' keys k' c' i' heuk "is_admin" (by decide)]
          simp [dictUpdate, dictGet_dictSet_self, dictGet_dictSet_ne]
        · rw [euk_preserves cfg.rand idx _ a' keys k' c' i' heuk "disabled" (by decide)]
          simp [dictUpdate, dictGet_dictSet_self, dictGet_dictSet_ne]
        · rw [euk_preserves cfg.rand idx _ a' keys k' c' i' heuk "created_at" (by decide)]
          simp [dictUpdate, dictGet_dictSet_ne]
    · rw [upsertMatch, if_neg hu] at h
      cases hrec : upsertMatch cfg idx u ph ad dis keys rest with
      | error e => rw [hrec] at h; exact absurd h (by simp)
      | ok o =>
        cases o with
        | none => rw [hrec] at h; exact absurd h (by simp)
        | some p =>
          obtain ⟨rest', idxr⟩ := p
          rw [hrec] at h
          have hp := Except.ok.inj h
          obtain ⟨pre, b, post, a', hrest, hrest', hpre, hb, hrest2⟩ := ih rest' idxr hrec
          have hl' : l' = a :: rest' := by
            have := congrArg (fun o => (o.getD ([], 0)).1) hp
            exact this.symm
          have hidx : idxr = idx2 := by
            have := congrArg (fun o => (o.getD ([], 0)).2) hp
            exact this
          refine ⟨a :: pre, b, post, a', by rw [hrest]; simp, by rw [hl', hrest']; simp, ?_,
            hb, hrest2.1, hrest2.2.1, hrest2.2.2.1, hrest2.2.2.2.1, hrest2.2.2.2.2.1,
            hrest2.2.2.2.2.2.1, hrest2.2.2.2.2.2.2⟩
          intro c hc
          rcases List.mem_cons.mp hc with hc | hc
          · exact hc ▸ hu
          · exact hpre c hc

/-- Decomposition of a successful matching `refreshMatch` run (only what
key-uniqueness needs). -/
theorem refreshMatch_ok_some (cfg : Config) (idx : Nat) (u : String)
    (keys : List Value) :
    ∀ (l l' : List Dict) (v : Value) (idx2 : Nat),
      refreshMatch cfg idx u keys l = Except.ok (some (l', v, idx2)) →
      ∃ pre a post a', l = pre ++ a :: post ∧ l' = pre ++ a' :: post ∧
        truthy (keyOf a') ∧ keyOf a' ∉ keys := by
  intro l
  induction l with
  | nil => intro l' v idx2 h; simp [refreshMatch] at h
  | cons a rest ih =>
    intro l' v idx2 h
    by_cases hu : dictGet a "username" = Value.str u
    · rw [refreshMatch, if_pos hu] at h
      cases heuk : _ensure_unique_api_key cfg.rand idx a keys with
      | error e => rw [heuk] at h; exact absurd h (by simp)
      | ok out =>
        obtain ⟨a', k', c', i'⟩ := out
        rw [heuk] at h
        have hp := Except.ok.inj h
        have hl' : l' = a' :: rest := (congrArg (fun o => (o.getD ([], Value.none, 0)).1) hp).symm
        have hfresh := euk_key_fresh cfg.rand idx a a' keys k' c' i' heuk
        exact ⟨[], a, rest, a', by simp, by simp [hl'], hfresh.1, hfresh.2.1⟩
    · rw [refreshMatch, if_neg hu] at h
      cases hrec : refreshMatch cfg idx u keys rest with
      | error e => rw [hrec] at h; exact absurd h (by simp)
      | ok o =>
        cases o with
        | none => rw [hrec] at h; exact absurd h (by simp)
        | some p =>
          obtain ⟨rest', vr, idxr⟩ := p
          rw [hrec] at h
          have hp := Except.ok.inj h
          obtain ⟨pre, b, post, a', hrest, hrest', htr, hfresh⟩ := ih rest' vr idxr hrec
          have hl' : l' = a :: rest' := by
            have := congrArg (fun o => (o.getD ([], Value.none, 0)).1) hp
            exact this.symm
          exact ⟨a :: pre, b, post, a', by rw [hrest]; simp, by rw [hl', hrest']; simp,
            htr, hfresh⟩

theorem nodup_append_fresh (l : List Dict) (a : Dict)
    (hnd : (l.map keyOf).Nodup) (htr : ∀ b ∈ l, truthy (keyOf b))
    (hfresh : keyOf a ∉ apiKeySet l) : ((l ++ [a]).map keyOf).Nodup := by
  simp only [List.map_append, List.map_cons, List.map_nil]
  rw [List.nodup_append]
  refine ⟨hnd, List.nodup_singleton _, ?_⟩
  intro v hv hw
  simp only [List.mem_singleton] at hw
  subst hw
  obtain ⟨b, hb, hbv⟩ := List.mem_map.mp hv
  exact hfresh (hbv ▸ keyOf_mem_apiKeySet l b hb (htr b hb))

theorem nodup_replace_mid (pre post : List Dict) (a a' : Dict)
    (hnd : ((pre ++ a :: post).map keyOf).Nodup)
    (htr : ∀ b ∈ pre ++ a :: post, truthy (keyOf b))
    (hfresh : keyOf a' ∉ apiKeySet (pre ++ a :: post)) :
    ((pre ++ a' :: post).map keyOf).Nodup := by
  have hmid : ∀ (x : Dict), ((pre ++ x :: post).map keyOf) =
      List.map keyOf pre ++ keyOf x :: List.map keyOf post := by
    intro x; simp
  rw [hmid a'] at *
  rw [hmid a] at hnd
  rw [List.nodup_middle] at hnd ⊢
  rw [List.nodup_cons] at hnd ⊢
  refine ⟨?_, hnd.2⟩
  intro hmem
  have : keyOf a' ∈ apiKeySet (pre ++ a :: post) := by
    rcases List.mem_append.mp hmem with hm | hm
    · obtain ⟨b, hb, hbv⟩ := List.mem_map.mp hm
      exact hbv ▸ keyOf_mem_apiKeySet _ b (List.mem_append_left _ hb)
        (htr b (List.mem_append_left _ hb))
    · obtain ⟨b, hb, hbv⟩ := List.mem_map.mp hm
      have hbmem : b ∈ pre ++ a :: post :=
        List.mem_append_right _ (List.mem_cons_of_mem _ hb)
      exact hbv ▸ keyOf_mem_apiKeySet _ b hbmem (htr b hbmem)
  exact hfresh this

theorem map_keyOf_set_disabled (u : String) (dis : Bool) :
    ∀ l : List Dict,
      (l.map (fun a => if dictGet a "username" = Value.str u
        then dictSet a "disabled" (Value.bool dis) else a)).map keyOf = l.map keyOf := by
  intro l
  induction l with
  | nil => rfl
  | cons a rest ih =>
    simp only [List.map_cons, ih]
    by_cases h : dictGet a "username" = Value.str u
    · rw [if_pos h]
      rw [show keyOf (dictSet a "disabled" (Value.bool dis)) = keyOf a from
        dictGet_dictSet_ne a "disabled" "api_key" (Value.bool dis) (by decide)]
    · rw [if_neg h]

/-! ### Claim C7: API-key uniqueness after every persisting operation -/

/-- C7: after every successful run of each account-list-persisting operation
(`ensure_default_account`, `upsert_account`, `remove_account`,
`set_disabled`, `refresh_api_key`, `update_last_login`, `update_last_call`
— the last two in their persisting, non-empty-username form), no two
distinct records of the persisted list share the same non-empty `api_key`. -/
theorem c7_api_key_uniqueness (cfg : Config) :
    (∀ idx stored s1 accounts idx1,
      ensure_default_account cfg idx stored = (s1, Except.ok (accounts, idx1)) →
      distinctKeys s1) ∧
    (∀ idx stored u p ad dis s2 idx2,
      upsert_account cfg idx stored u p ad dis = (s2, Except.ok idx2) →
      distinctKeys s2) ∧
    (∀ idx stored u s2 idx2,
      remove_account cfg idx stored u = (s2, Except.ok idx2) → distinctKeys s2) ∧
    (∀ idx stored u dis s2 idx2,
      set_disabled cfg idx stored u dis = (s2, Except.ok idx2) → distinctKeys s2) ∧
    (∀ idx stored u s2 v idx2,
      refresh_api_key cfg idx stored u = (s2, Except.ok (v, idx2)) → distinctKeys s2) ∧
    (∀ idx stored u s2 idx2, u ≠ "" →
      update_last_login cfg idx stored u = (s2, Except.ok idx2) → distinctKeys s2) ∧
    (∀ idx stored u s2 idx2, u ≠ "" →
      update_last_call cfg idx stored u = (s2, Except.ok idx2) → distinctKeys s2) := by
  have hens : ∀ idx stored s1 accounts idx1,
      ensure_default_account cfg idx stored = (s1, Except.ok (accounts, idx1)) →
      (∀ b ∈ accounts, truthy (keyOf b)) ∧ (accounts.map keyOf).Nodup ∧
      (∀ b ∈ s1, truthy (keyOf b)) ∧ (s1.map keyOf).Nodup :=
    fun idx stored s1 accounts idx1 h =>
      ensure_ok_keys cfg idx stored s1 accounts idx1 h
  refine ⟨?_, ?_, ?_, ?_, ?_, ?_, ?_⟩
  · intro idx stored s1 accounts idx1 h
    exact distinctKeys_of_nodup s1 (hens idx stored s1 accounts idx1 h).2.2.2
  · intro idx stored u p ad dis s2 idx2 h
    unfold upsert_account at h
    cases hrun : ensure_default_account cfg idx stored with
    | mk s r0 =>
      rw [hrun] at h
      cases r0 with
      | error e => exact absurd (congrArg Prod.snd h) (by simp)
      | ok pr =>
        obtain ⟨accounts, idxa⟩ := pr
        obtain ⟨htr, hnd, _, _⟩ := hens idx stored s accounts idxa hrun
        dsimp only at h
        cases hmatch : upsertMatch cfg idxa u (cfg.hash p) ad dis
            (apiKeySet accounts) accounts with
        | error e => rw [hmatch] at h; exact absurd (congrArg Prod.snd h) (by simp)
        | ok o =>
          rw [hmatch] at h
          cases o with
          | some pr2 =>
            obtain ⟨accounts', idxm⟩ := pr2
            dsimp only at h
            have hs2 : s2 = accounts' := (congrArg Prod.fst h).symm
            obtain ⟨pre, a, post, a', hl, hl', _, _, _, _, _, _, _, htr', hfresh⟩ :=
              upsertMatch_ok_some cfg idxa u (cfg.hash p) ad dis
                (apiKeySet accounts) accounts accounts' idxm hmatch
            rw [hs2, hl']
            refine distinctKeys_of_nodup _ (nodup_replace_mid pre post a a' ?_ ?_ ?_)
            · rw [← hl]; exact hnd
            · rw [← hl]; exact htr
            · rw [← hl]; exact hfresh
          | none =>
            dsimp only at h
            cases heuk : _ensure_unique_api_key cfg.rand idxa
              [("username", Value.str u), ("password_hash", Value.str (cfg.hash p)),
               ("is_admin", Value.bool ad), ("disabled", Value.bool dis),
               ("created_at", Value.nat cfg.now)] (apiKeySet accounts) with
            | error e => rw [heuk] at h; exact absurd (congrArg Prod.snd h) (by simp)
            | ok out =>
              obtain ⟨a', k', c', i'⟩ := out
              rw [heuk] at h
              have hs2 : s2 = accounts ++ [a'] := (congrArg Prod.fst h).symm
              have hfresh := euk_key_fresh cfg.rand idxa _ a' (apiKeySet accounts)
                k' c' i' heuk
              rw [hs2]
              exact distinctKeys_of_nodup _
                (nodup_append_fresh accounts a' hnd htr hfresh.2.1)
  · intro idx stored u s2 idx2 h
    unfold remove_account at h
    cases hrun : ensure_default_account cfg idx stored with
    | mk s r0 =>
      rw [hrun] at h
      cases r0 with
      | error e => exact absurd (congrArg Prod.snd h) (by simp)
      | ok pr =>
        obtain ⟨accounts, idxa⟩ := pr
        obtain ⟨_, hnd, _, _⟩ := hens idx stored s accounts idxa hrun
        dsimp only at h
        by_cases hf : accounts.filter (fun a => !(dictGet a "username" = Value.str u)) = []
        · rw [if_pos hf] at h
          exact absurd (congrArg Prod.snd h) (by simp)
        · rw [if_neg hf] at h
          injection h with h1 h2
          subst h1
          exact distinctKeys_of_nodup _
            (hnd.sublist (List.Sublist.map keyOf (List.filter_sublist _)))
  · intro idx stored u dis s2 idx2 h
    unfold set_disabled at h
    cases hrun : ensure_default_account cfg idx stored with
    | mk s r0 =>
      rw [hrun] at h
      cases r0 with
      | error e => exact absurd (congrArg Prod.snd h) (by simp)
      | ok pr =>
        obtain ⟨accounts, idxa⟩ := pr
        obtain ⟨_, hnd, _, _⟩ := hens idx stored s accounts idxa hrun
        dsimp only at h
        injection h with h1 h2
        subst h1
        unfold distinctKeys
        rw [map_keyOf_set_disabled u dis accounts]
        exact distinctKeys_of_nodup accounts hnd
  · intro idx stored u s2 v idx2 h
    unfold refresh_api_key at h
    cases hrun : ensure_default_account cfg idx stored with
    | mk s r0 =>
      rw [hrun] at h
      cases r0 with
      | error e => exact absurd (congrArg Prod.snd h) (by simp)
      | ok pr =>
        obtain ⟨accounts, idxa⟩ := pr
        obtain ⟨htr, hnd, _, _⟩ := hens idx stored s accounts idxa hrun
        dsimp only at h
        cases hmatch : refreshMatch cfg idxa u (apiKeySet accounts) accounts with
        | error e => rw [hmatch] at h; exact absurd (congrArg Prod.snd h) (by simp)
        | ok o =>
          rw [hmatch] at h
          cases o with
          | none => exact absurd (congrArg Prod.snd h) (by simp)
          | some pr2 =>
            obtain ⟨accounts', vr, idxm⟩ := pr2
            dsimp only at h
            have hs2 : s2 = accounts' := (congrArg Prod.fst h).symm
            obtain ⟨pre, a, post, a', hl, hl', htr', hfresh⟩ :=
              refreshMatch_ok_some cfg idxa u (apiKeySet accounts)
                accounts accounts' vr idxm hmatch
            rw [hs2, hl']
            refine distinctKeys_of_nodup _ (nodup_replace_mid pre post a a' ?_ ?_ ?_)
            · rw [← hl]; exact hnd
            · rw [← hl]; exact htr
            · rw [← hl]; exact hfresh
  · intro idx stored u s2 idx2 hu h
    unfold update_last_login at h
    rw [if_neg hu] at h
    cases hrun : ensure_default_account cfg idx stored with
    | mk s r0 =>
      rw [hrun] at h
      cases r0 with
      | error e => exact absurd (congrArg Prod.snd h) (by simp)
      | ok pr =>
        obtain ⟨accounts, idxa⟩ := pr
        obtain ⟨_, hnd, _, _⟩ := hens idx stored s accounts idxa hrun
        dsimp only at h
        injection h with h1 h2
        subst h1
        unfold distinctKeys
        rw [stampFirst_map_keyOf u "last_login" (Value.nat cfg.now) (by decide) accounts]
        exact distinctKeys_of_nodup accounts hnd
  · intro idx stored u s2 idx2 hu h
    unfold update_last_call at h
    rw [if_neg hu] at h
    cases hrun : ensure_default_account cfg idx stored with
    | mk s r0 =>
      rw [hrun] at h
      cases r0 with
      | error e => exact absurd (congrArg Prod.snd h) (by simp)
      | ok pr =>
        obtain ⟨accounts, idxa⟩ := pr
        obtain ⟨_, hnd, _, _⟩ := hens idx stored s accounts idxa hrun
        dsimp only at h
        injection h with h1 h2
        subst h1
        unfold distinctKeys
        rw [stampFirst_map_keyOf u "last_call" (Value.nat cfg.now) (by decide) accounts]
        exact distinctKeys_of_nodup accounts hnd

/-- C7, witness: key uniqueness of the list persisted by a concrete
`upsert_account` run that regenerated bob's key. -/
theorem c7_witness :
    distinctKeys (upsert_account cfgA 0 [staleAdmin, bobRec] "bob" "pw2" false false).1 :=
  (c7_api_key_uniqueness cfgA).2.1 0 [staleAdmin, bobRec] "bob" "pw2" false false
    (upsert_account cfgA 0 [staleAdmin, bobRec] "bob" "pw2" false false).1 1 (by decide)

/-! ### Claim C2: upsert on an existing record -/

theorem countUser_eq_zero_iff (u : String) (l : List Dict) :
    countUser u l = 0 ↔ ∀ a ∈ l, dictGet a "username" ≠ Value.str u := by
  simp [countUser, List.length_eq_zero, List.filter_eq_nil_iff]

/-- `ensure_default_account` on a fully-keyed store with pairwise-distinct
keys: the returned list is the keep-rewrite of the store, possibly followed
by one appended admin-named record. -/
theorem ensure_ok_keep (cfg : Config) (idx : Nat)
    (stored s1 accounts : List Dict) (idx1 : Nat)
    (h : ensure_default_account cfg idx stored = (s1, Except.ok (accounts, idx1)))
    (hne : stored ≠ [])
    (htr : ∀ a ∈ stored, truthy (keyOf a))
    (hnd : (stored.map keyOf).Nodup) :
    ∃ post tail, accounts = post ++ tail ∧
      List.Forall₂ (keepR cfg) stored post ∧
      (tail = [] ∨ ∃ a, tail = [a] ∧
        dictGet a "username" = Value.str cfg.adminUsername) := by
  rcases ensure_ok_shape cfg idx stored s1 accounts idx1 h with
    ⟨hemp, _⟩ | ⟨_, st', hloop, hcase⟩
  · exact absurd hemp hne
  · obtain ⟨post, hdone, hfa, _, _⟩ := healLoop_keep cfg stored
      { done := [], keys := [], updated := false, adminFound := false, idx := idx }
      st' hloop htr hnd (fun a _ => List.not_mem_nil _)
    rcases hcase with ⟨_, hacc, _⟩ | ⟨_, a, hacc, _, _, hid, _⟩
    · exact ⟨post, [], by rw [hacc, hdone]; simp, hfa, Or.inl rfl⟩
    · exact ⟨post, [a], by rw [hacc, hdone]; simp, hfa, Or.inr ⟨a, rfl, hid.1⟩⟩

/-- Through the keep-rewrite, records named `u ≠ admin` are carried over
verbatim and the `u`-count is preserved. -/
theorem keep_count_mem (cfg : Config) (u : String) (hu : u ≠ cfg.adminUsername)
    (l post : List Dict) (hfa : List.Forall₂ (keepR cfg) l post)
    (hpf : ∀ a ∈ l, dictGet a "username" = Value.str u → isAdminFlagged a = false) :
    countUser u post = countUser u l ∧
    (∀ b ∈ l, dictGet b "username" = Value.str u → b ∈ post) := by
  induction hfa with
  | nil => exact ⟨rfl, by intro b hb; cases hb⟩
  | cons hR hrest ih =>
    rename_i a a' l' post'
    obtain ⟨ihc, ihm⟩ := ih (fun c hc => hpf c (List.mem_cons_of_mem _ hc))
    have hnames : (dictGet a' "username" = Value.str u ↔
        dictGet a "username" = Value.str u) ∧
        (dictGet a "username" = Value.str u → a' = a) := by
      rcases Bool.eq_false_or_eq_true (eligible cfg a) with he | he
      · -- eligible: the record is rewritten to the admin identity, and it
        -- cannot be named u
        have hida := hR.2.2 he
        have hna' : dictGet a' "username" = Value.str cfg.adminUsername := hida.2.1
        have hna : dictGet a "username" ≠ Value.str u := by
          intro hcontra
          have hflag := hpf a (List.mem_cons_self _ _) hcontra
          have := (eligible_eq_false_iff cfg a).mpr ⟨hflag, by
            rw [hcontra]
            intro hc
            exact hu (Value.str.inj hc)⟩
          rw [this] at he
          exact Bool.noConfusion he
        constructor
        · constructor
          · intro hc
            rw [hna'] at hc
            exact absurd (Value.str.inj hc).symm hu
          · intro hc; exact absurd hc hna
        · intro hc; exact absurd hc hna
      · have ha' : a' = a := hR.2.1 he
        exact ⟨by rw [ha'], fun _ => ha'⟩
    constructor
    · rw [countUser_cons, countUser_cons, ihc]
      by_cases hau : dictGet a "username" = Value.str u
      · rw [if_pos hau, if_pos (hnames.1.mpr hau)]
      · rw [if_neg hau, if_neg (fun hc => hau (hnames.1.mp hc))]
    · intro b hb hbu
      rcases List.mem_cons.mp hb with hb | hb
      · subst hb
        rw [← hnames.2 hbu]
        exact List.mem_cons_self _ _
      · exact List.mem_cons_of_mem _ (ihm b hb hbu)

/-- C2, counterexample: on a fully-healed store where `bob` holds the
non-empty key `KB`, `upsert_account("bob", "pw2")` does not leave the
api_key unchanged — the matched record's own key is in the seen-set the
code builds, so a fresh key is always drawn. -/
theorem c2_counterexample :
    (match _find_account "bob"
        (upsert_account cfgA 0 [staleAdmin, bobRec] "bob" "pw2" false false).1 with
     | some a => keyOf a
     | Option.none => Value.none) ≠ Value.str "KB" ∧
    keyOf bobRec = Value.str "KB" := by
  exact ⟨by decide, by decide⟩

/-- C2 (amended): on a store whose records all hold pairwise-distinct
non-empty api keys, with exactly one non-admin record named `u` (and `u` not
the admin username), a successful `upsert_account(u, p, ad, dis)` leaves
exactly one `u` record; that record's password hash is the hash of `p` and
its flags are the given arguments — but its `api_key` is NOT left unchanged:
it is replaced by a freshly drawn key different from the record's previous
key. -/
theorem c2_upsert_amended (cfg : Config) (idx : Nat) (stored : List Dict)
    (u p : String) (ad dis : Bool) (s2 : List Dict) (idx2 : Nat) (b : Dict)
    (hu : u ≠ cfg.adminUsername)
    (hcount : countUser u stored = 1)
    (hpf : ∀ a ∈ stored, dictGet a "username" = Value.str u → isAdminFlagged a = false)
    (htr : ∀ a ∈ stored, truthy (keyOf a))
    (hnd : (stored.map keyOf).Nodup)
    (hfindb : _find_account u stored = some b)
    (hrun : upsert_account cfg idx stored u p ad dis = (s2, Except.ok idx2)) :
    countUser u s2 = 1 ∧
    ∃ a, _find_account u s2 = some a ∧
      dictGet a "password_hash" = Value.str (cfg.hash p) ∧
      dictGet a "is_admin" = Value.bool ad ∧
      dictGet a "disabled" = Value.bool dis ∧
      truthy (keyOf a) ∧ keyOf a ≠ keyOf b := by
  obtain ⟨preb, postb, hbdec, _, hbu⟩ := find_account_some_decomp u stored b hfindb
  have hbmem : b ∈ stored := by rw [hbdec]; exact List.mem_append_right _ (List.mem_cons_self _ _)
  have hne : stored ≠ [] := by
    intro hc
    rw [hc] at hbmem
    cases hbmem
  unfold upsert_account at hrun
  cases hens : ensure_default_account cfg idx stored with
  | mk s r0 =>
    rw [hens] at hrun
    cases r0 with
    | error e => exact absurd (congrArg Prod.snd hrun) (by simp)
    | ok pr =>
      obtain ⟨accounts, idxa⟩ := pr
      dsimp only at hrun
      obtain ⟨post, tail, hacc, hfa, htail⟩ :=
        ensure_ok_keep cfg idx stored s accounts idxa hens hne htr hnd
      obtain ⟨hcpost, hmem⟩ := keep_count_mem cfg u hu stored post hfa hpf
      have hacount : countUser u accounts = 1 := by
        rw [hacc, countUser_append, hcpost, hcount]
        rcases htail with rfl | ⟨a, rfl, hname⟩
        · rfl
        · rw [countUser_cons]
          rw [if_neg (by rw [hname]; intro hc; exact hu (Value.str.inj hc).symm)]
          rfl
      obtain ⟨htra, _, _, _⟩ := ensure_ok_keys cfg idx stored s accounts idxa hens
      have hbacc : b ∈ accounts := by
        rw [hacc]
        exact List.mem_append_left _ (hmem b hbmem hbu)
      have hbkey : keyOf b ∈ apiKeySet accounts :=
        keyOf_mem_apiKeySet accounts b hbacc (htr b hbmem)
      cases hmatch : upsertMatch cfg idxa u (cfg.hash p) ad dis
          (apiKeySet accounts) accounts with
      | error e => rw [hmatch] at hrun; exact absurd (congrArg Prod.snd hrun) (by simp)
      | ok o =>
        rw [hmatch] at hrun
        cases o with
        | none =>
          have hnone := (upsertMatch_ok_none_iff cfg idxa u (cfg.hash p) ad dis
            (apiKeySet accounts) accounts).mp hmatch
          have := (countUser_eq_zero_iff u accounts).mpr hnone
          rw [hacount] at this
          exact absurd this (by simp)
        | some pr2 =>
          obtain ⟨accounts', idxm⟩ := pr2
          dsimp only at hrun
          injection hrun with h1 h2
          subst h1
          obtain ⟨pre, m, post2, a', hl, hl', hpre, hmu, ha'u, ha'p, ha'ad, ha'dis,
            _, ha'tr, ha'fresh⟩ :=
            upsertMatch_ok_some cfg idxa u (cfg.hash p) ad dis
              (apiKeySet accounts) accounts accounts' idxm hmatch
          have ha'name : dictGet a' "username" = Value.str u := by rw [ha'u, hmu]
          constructor
          · rw [hl']
            rw [hl] at hacount
            rw [countUser_append, countUser_cons] at hacount ⊢
            rw [if_pos ha'name]
            rw [if_pos hmu] at hacount
            exact hacount
          · refine ⟨a', ?_, ha'p, ha'ad, ha'dis, ha'tr, ?_⟩
            · rw [hl', find_account_append_left u pre _ hpre]
              rw [_find_account, if_pos ha'name]
            · intro hc
              rw [hc] at ha'fresh
              exact ha'fresh hbkey

/-- C2, witness: the amended claim on the concrete healed store
`[staleAdmin, bobRec]`. -/
theorem c2_witness :
    countUser "bob" (upsert_account cfgA 0 [staleAdmin, bobRec] "bob" "pw2" false false).1 = 1 ∧
    ∃ a, _find_account "bob"
        (upsert_account cfgA 0 [staleAdmin, bobRec] "bob" "pw2" false false).1 = some a ∧
      dictGet a "password_hash" = Value.str (cfgA.hash "pw2") ∧
      dictGet a "is_admin" = Value.bool false ∧
      dictGet a "disabled" = Value.bool false ∧
      truthy (keyOf a) ∧ keyOf a ≠ keyOf bobRec :=
  c2_upsert_amended cfgA 0 [staleAdmin, bobRec] "bob" "pw2" false false
    (upsert_account cfgA 0 [staleAdmin, bobRec] "bob" "pw2" false false).1 1 bobRec
    (by decide) (by decide) (by decide) (by decide) (by decide) (by decide) (by decide)

/-! ### Claim C4: authentication precedence -/

theorem ensure_ok_adminname (cfg : Config) (idx : Nat)
    (stored s1 accounts : List Dict) (idx1 : Nat)
    (h : ensure_default_account cfg idx stored = (s1, Except.ok (accounts, idx1))) :
    ∃ a ∈ accounts, dictGet a "username" = Value.str cfg.adminUsername := by
  rcases ensure_ok_shape cfg idx stored s1 accounts idx1 h with
    ⟨_, _, a, hacc, _, hid, _⟩ | ⟨_, st', hloop, hcase⟩
  · exact ⟨a, by rw [hacc]; exact List.mem_cons_self _ _, hid.1⟩
  · rcases hcase with ⟨hfound, hacc, _⟩ | ⟨_, a, hacc, _, _, hid, _⟩
    · obtain ⟨a, ha, hau⟩ := healLoop_admin_exists cfg stored
        { done := [], keys := [], updated := false, adminFound := false, idx := idx }
        st' hloop (fun h2 => Bool.noConfusion h2) hfound
      exact ⟨a, hacc ▸ ha, hau⟩
    · exact ⟨a, by rw [hacc]; exact List.mem_append_right _ (List.mem_cons_self _ _), hid.1⟩

theorem ensure_ok_no_user (cfg : Config) (idx : Nat)
    (stored s1 accounts : List Dict) (idx1 : Nat) (u : String)
    (hu : u ≠ cfg.adminUsername)
    (h : ensure_default_account cfg idx stored = (s1, Except.ok (accounts, idx1)))
    (hst : ∀ a ∈ stored, isAdminFlagged a = false →
      dictGet a "username" ≠ Value.str u) :
    ∀ a ∈ accounts, dictGet a "username" ≠ Value.str u := by
  rcases ensure_ok_shape cfg idx stored s1 accounts idx1 h with
    ⟨_, _, a, hacc, _, hid, _⟩ | ⟨_, st', hloop, hcase⟩
  · intro b hb
    rw [hacc] at hb
    have : b = a := by simpa using hb
    rw [this, hid.1]
    intro hc
    exact hu (Value.str.inj hc).symm
  · have hdone := healLoop_no_user cfg u hu stored
      { done := [], keys := [], updated := false, adminFound := false, idx := idx }
      st' hloop hst (by intro a ha; cases ha)
    rcases hcase with ⟨_, hacc, _⟩ | ⟨_, a, hacc, _, _, hid, _⟩
    · exact hacc ▸ hdone
    · intro b hb
      rw [hacc] at hb
      rcases List.mem_append.mp hb with hb | hb
      · exact hdone b hb
      · have : b = a := by simpa using hb
        rw [this, hid.1]
        intro hc
        exact hu (Value.str.inj hc).symm

theorem ensure_ok_user_fwd (cfg : Config) (idx : Nat)
    (stored s1 accounts : List Dict) (idx1 : Nat) (u : String)
    (hu : u ≠ cfg.adminUsername)
    (h : ensure_default_account cfg idx stored = (s1, Except.ok (accounts, idx1)))
    (hex : ∃ a ∈ stored, dictGet a "username" = Value.str u ∧
      isAdminFlagged a = false) :
    ∃ b ∈ accounts, dictGet b "username" = Value.str u := by
  rcases ensure_ok_shape cfg idx stored s1 accounts idx1 h with
    ⟨hemp, _⟩ | ⟨_, st', hloop, hcase⟩
  · rw [hemp] at hex
    obtain ⟨a, ha, _⟩ := hex
    cases ha
  · obtain ⟨b, hb, hbu⟩ := healLoop_user_fwd cfg u hu stored
      { done := [], keys := [], updated := false, adminFound := false, idx := idx }
      st' hloop hex
    rcases hcase with ⟨_, hacc, _⟩ | ⟨_, a, hacc, _⟩
    · exact ⟨b, hacc ▸ hb, hbu⟩
    · exact ⟨b, by rw [hacc]; exact List.mem_append_left _ hb, hbu⟩

theorem ensure_ok_persisted (cfg : Config) (idx : Nat)
    (stored s1 accounts : List Dict) (idx1 : Nat)
    (h : ensure_default_account cfg idx stored = (s1, Except.ok (accounts, idx1))) :
    s1 = stored ∨ s1 = accounts := by
  rcases ensure_ok_shape cfg idx stored s1 accounts idx1 h with
    ⟨_, hs1, _⟩ | ⟨_, st', _, hcase⟩
  · exact Or.inr hs1
  · rcases hcase with ⟨_, hacc, _, hupt, hupf⟩ | ⟨_, a, _, hs1, _⟩
    · cases hupd2 : st'.updated with
      | true => exact Or.inr (by rw [hupt hupd2, hacc])
      | false => exact Or.inl (hupf hupd2)
    · exact Or.inr hs1

/-- C4, counterexample: with the empty stored list and the admin username —
unknown in the stored list — authenticate does not auto-create a non-admin
account with the newly-created flag: the self-heal creates the admin first,
and the call reports success with created = false. -/
theorem c4_counterexample :
    _find_account "admin" ([] : List Dict) = Option.none ∧
    (authenticate cfgA 0 [] "admin" "pw").2 =
      Except.ok (AuthResult.success false, 1) := by
  exact ⟨rfl, by decide⟩

/-- C4 (amended): authenticate's precedence, with "unknown" read against the
self-healed list (the admin record always exists after the heal).  Unknown
username: success with created = true, and the persisted list gains a
non-admin, enabled record with the given password hash.  Known and disabled:
failure "disabled", even when the hash matches.  Known, enabled: success
(created = false) on hash match, failure "password_mismatch" otherwise. -/
theorem c4_auth_precedence_amended (cfg : Config) (idx : Nat)
    (stored s1 accounts : List Dict) (idx1 : Nat) (u p : String)
    (hens : ensure_default_account cfg idx stored = (s1, Except.ok (accounts, idx1))) :
    (∀ s2 res idx2, _find_account u accounts = Option.none →
      authenticate cfg idx stored u p = (s2, Except.ok (res, idx2)) →
      res = AuthResult.success true ∧
      ∃ a, _find_account u s2 = some a ∧
        dictGet a "password_hash" = Value.str (cfg.hash p) ∧
        dictGet a "is_admin" = Value.bool false ∧
        dictGet a "disabled" = Value.bool false) ∧
    (∀ a, _find_account u accounts = some a → truthy (dictGet a "disabled") →
      authenticate cfg idx stored u p =
        (s1, Except.ok (AuthResult.failure "disabled", idx1))) ∧
    (∀ a, _find_account u accounts = some a → ¬ truthy (dictGet a "disabled") →
      dictGet a "password_hash" = Value.str (cfg.hash p) →
      authenticate cfg idx stored u p =
        (s1, Except.ok (AuthResult.success false, idx1))) ∧
    (∀ a, _find_account u accounts = some a → ¬ truthy (dictGet a "disabled") →
      dictGet a "password_hash" ≠ Value.str (cfg.hash p) →
      authenticate cfg idx stored u p =
        (s1, Except.ok (AuthResult.failure "password_mismatch", idx1))) := by
  refine ⟨?_, ?_, ?_, ?_⟩
  · intro s2 res idx2 hnone hrun
    have hu : u ≠ cfg.adminUsername := by
      obtain ⟨a0, ha0, ha0u⟩ := ensure_ok_adminname cfg idx stored s1 accounts idx1 hens
      intro hc
      rw [hc] at hnone
      exact (find_account_none_iff cfg.adminUsername accounts).mp hnone a0 ha0 ha0u
    have hstored_plain : ∀ a ∈ stored, isAdminFlagged a = false →
        dictGet a "username" ≠ Value.str u := by
      intro a ha haf hau
      obtain ⟨b, hb, hbu⟩ := ensure_ok_user_fwd cfg idx stored s1 accounts idx1 u hu
        hens ⟨a, ha, hau, haf⟩
      exact (find_account_none_iff u accounts).mp hnone b hb hbu
    have hs1_plain : ∀ a ∈ s1, isAdminFlagged a = false →
        dictGet a "username" ≠ Value.str u := by
      rcases ensure_ok_persisted cfg idx stored s1 accounts idx1 hens with hs | hs
      · rw [hs]; exact hstored_plain
      · rw [hs]
        exact fun a ha _ => (find_account_none_iff u accounts).mp hnone a ha
    unfold authenticate at hrun
    rw [hens] at hrun
    dsimp only at hrun
    rw [hnone] at hrun
    cases hups : upsert_account cfg idx1 s1 u p false false with
    | mk s2u r2 =>
      rw [hups] at hrun
      cases r2 with
      | error e => exact absurd (congrArg Prod.snd hrun) (by simp)
      | ok idx2u =>
        dsimp only at hrun
        have hres : res = AuthResult.success true := by
          have := congrArg Prod.snd hrun
          simp only at this
          exact (congrArg Prod.fst (Except.ok.inj this)).symm
        have hs2 : s2 = s2u := (congrArg Prod.fst hrun).symm
        refine ⟨hres, ?_⟩
        unfold upsert_account at hups
        cases hens2 : ensure_default_account cfg idx1 s1 with
        | mk s1' r3 =>
          rw [hens2] at hups
          cases r3 with
          | error e => exact absurd (congrArg Prod.snd hups) (by simp)
          | ok pr =>
            obtain ⟨L2, idxL⟩ := pr
            dsimp only at hups
            have hL2 : ∀ a ∈ L2, dictGet a "username" ≠ Value.str u :=
              ensure_ok_no_user cfg idx1 s1 s1' L2 idxL u hu hens2 hs1_plain
            rw [(upsertMatch_ok_none_iff cfg idxL u (cfg.hash p) false false
              (apiKeySet L2) L2).mpr hL2] at hups
            dsimp only at hups
            cases heuk : _ensure_unique_api_key cfg.rand idxL
              [("username", Value.str u), ("password_hash", Value.str (cfg.hash p)),
               ("is_admin", Value.bool false), ("disabled", Value.bool false),
               ("created_at", Value.nat cfg.now)] (apiKeySet L2) with
            | error e => rw [heuk] at hups; exact absurd (congrArg Prod.snd hups) (by simp)
            | ok out =>
              obtain ⟨a', k', c', i'⟩ := out
              rw [heuk] at hups
              have hs2u : s2u = L2 ++ [a'] := (congrArg Prod.fst hups).symm
              have hpres := fun (k : String) (hk : k ≠ "api_key") =>
                euk_preserves cfg.rand idxL _ a' (apiKeySet L2) k' c' i' heuk k hk
              have ha'u : dictGet a' "username" = Value.str u := by
                rw [hpres "username" (by decide)]
                simp [dictGet, dictFind]
              refine ⟨a', ?_, ?_, ?_, ?_⟩
              · rw [hs2, hs2u, find_account_append_left u L2 _ hL2]
                rw [_find_account, if_pos ha'u]
              · rw [hpres "password_hash" (by decide)]
                simp [dictGet, dictFind]
              · rw [hpres "is_admin" (by decide)]
                simp [dictGet, dictFind]
              · rw [hpres "disabled" (by decide)]
                simp [dictGet, dictFind]
  · intro a hfind hdis
    unfold authenticate
    rw [hens]
    dsimp only
    rw [hfind]
    dsimp only
    rw [if_pos hdis]
  · intro a hfind hdis hhash
    unfold authenticate
    rw [hens]
    dsimp only
    rw [hfind]
    dsimp only
    rw [if_neg hdis, if_pos hhash]
  · intro a hfind hdis hhash
    unfold authenticate
    rw [hens]
    dsimp only
    rw [hfind]
    dsimp only
    rw [if_neg hdis, if_neg hhash]

/-- C4, witness: a known enabled account with a matching hash authenticates
with created = false, on a concrete store. -/
theorem c4_witness :
    authenticate cfgA 0 [staleAdmin] "admin" "pw" =
      ([staleAdmin], Except.ok (AuthResult.success false, 0)) :=
  (c4_auth_precedence_amended cfgA 0 [staleAdmin] [staleAdmin]
    (returnedOf (ensure_default_account cfgA 0 [staleAdmin])) 0 "admin" "pw"
    (by decide)).2.2.1
    (returnedOf (ensure_default_account cfgA 0 [staleAdmin])).head!
    (by decide) (by decide) (by decide)

end GCli

